import Mathlib

/-!
Verification of the DevCommit change-set partitioning and commit-message
sanitisation code (src/devcommit/main.py, src/devcommit/utils/git.py)
against its natural-language specification.

The Python functions are shallowly embedded as executable Lean functions.
Python strings are Lean `String` (operations are implemented over the
underlying `List Char`, matching CPython code-point semantics), Python
lists are Lean `List`, Python dicts are association lists that preserve
insertion order and keep keys unique (`dictInsert` replaces in place, as
a Python dict assignment does), and Python sets used only for membership
tests are plain lists queried by membership.  Decoded JSON values are the
inductive `JVal`; the call to `json.loads` (together with the markdown
fence stripping and bracket extraction that precede it) is modelled as an
`Option JVal` input, `none` standing for a `json.JSONDecodeError`.
Python exceptions relevant to the embedded fragment are `PyExc`.
-/

/-! ## Basic character and string helpers (CPython semantics) -/
/-- Python whitespace stripped by `str.strip()` restricted to the ASCII
whitespace characters (space, tab, newline, carriage return, vertical
tab, form feed); the embedded code only ever meets ASCII whitespace. -/
def isPySpace (c : Char) : Bool :=
  c = ' ' || c = '\t' || c = '\n' || c = '\r' || c = '\x0b' || c = '\x0c'

/-- Left trim of `str.strip()` on the character list. -/
def pyStripLeftL (l : List Char) : List Char := l.dropWhile isPySpace

/-- Right trim of `str.strip()` on the character list. -/
def pyStripRightL (l : List Char) : List Char :=
  (l.reverse.dropWhile isPySpace).reverse

/-- Python `str.strip()` on the character list. -/
def pyStripL (l : List Char) : List Char := pyStripRightL (pyStripLeftL l)

/-- Python `str.strip()`. -/
def pyStrip (s : String) : String := String.mk (pyStripL s.data)

/-- Python `s.startswith(p)` on character lists: first argument the
string, second the pattern. -/
def beginsWith : List Char → List Char → Bool
  | _, [] => true
  | [], _ :: _ => false
  | c :: cs, d :: ds => c = d && beginsWith cs ds

/-- Python `s.startswith(p)` on strings. -/
def beginsWithS (s p : String) : Bool := beginsWith s.data p.data

/-- Python `s.endswith(p)` on character lists. -/
def endsWithL (s p : List Char) : Bool := beginsWith s.reverse p.reverse

/-- Python `s.endswith(p)` on strings. -/
def endsWithS (s p : String) : Bool := endsWithL s.data p.data

/-- Python `str.split(sep)` for a one-character separator, on character
lists: `splitChar sep "a|b"` is `["a", "b"]`, and the empty string
splits to `[""]`, exactly as in CPython. -/
def splitChar (sep : Char) : List Char → List (List Char)
  | [] => [[]]
  | c :: cs =>
    match splitChar sep cs with
    | [] => [[c]]
    | p :: ps => if c = sep then [] :: p :: ps else (c :: p) :: ps

/-- Python `s.split("|")` on strings. -/
def pySplitPipe (s : String) : List String :=
  (splitChar '|' s.data).map String.mk

/-- Python `sep.join`-style join for a one-character separator. -/
def joinChar (sep : Char) (ps : List (List Char)) : List Char :=
  List.intercalate [sep] ps

/-! ## Embedding of `sanitize_commit_messages` (src/devcommit/main.py, lines 37-64)

The Python function accepts either a single string or a list of strings;
the untyped argument is embedded as the sum type `StrOrList`. -/
/-- Argument type of `sanitize_commit_messages`: a raw string or an
already split list of candidate messages. -/
inductive StrOrList where
  | str (s : String)
  | list (xs : List String)
deriving DecidableEq

/-- Loop body of `sanitize_commit_messages` (main.py lines 53-62): skip
falsy entries, strip, skip entries that start with the error marker,
keep the rest. -/
def sanitizeLoop : List String → List String
  | [] => []
  | m :: rest =>
    if m = "" then sanitizeLoop rest
    else
      let m2 := pyStrip m
      if beginsWithS m2 "Error generating commit message:" then sanitizeLoop rest
      else if m2 ≠ "" ∧ pyStrip m2 ≠ "" then m2 :: sanitizeLoop rest
      else sanitizeLoop rest

/-- Embedding of `sanitize_commit_messages` (main.py lines 37-64): a
string argument is rejected when empty or whitespace-only, otherwise
split on the pipe character; then the filtering loop runs. -/
def sanitize_commit_messages : StrOrList → List String
  | .str s =>
    if s = "" ∨ pyStrip s = "" then []
    else sanitizeLoop (pySplitPipe s)
  | .list xs => sanitizeLoop xs

/-- Specification-side candidate filter, written from the words of the
spec (section 6): a string input encodes candidates separated by the
pipe character, all candidates are trimmed, empty entries are dropped,
and every candidate whose text begins with the literal marker
`Error generating commit message:` is discarded. -/
def sanitizeSpec (input : StrOrList) : List String :=
  let cands := match input with
    | .str s => pySplitPipe s
    | .list xs => xs
  (cands.map pyStrip).filter
    (fun m => m ≠ "" && !(beginsWithS m "Error generating commit message:"))

/-! ## Association lists standing for Python dicts

Python dicts preserve insertion order; assignment to an existing key
replaces the value in place, assignment to a fresh key appends.  A
`defaultdict(list)` whose lists are only ever appended to is built with
`updAppend`. -/
/-- Keys of an association list, in insertion order. -/
def keysOf {κ ν : Type} (m : List (κ × ν)) : List κ := m.map Prod.fst

/-- Lookup of the first (and, with unique keys, only) binding. -/
def alookup {κ ν : Type} [DecidableEq κ] : List (κ × ν) → κ → Option ν
  | [], _ => none
  | (k2, v) :: rest, k => if k2 = k then some v else alookup rest k

/-- Python dict assignment `m[k] = v`: replace in place or append. -/
def dictInsert {κ ν : Type} [DecidableEq κ] : List (κ × ν) → κ → ν → List (κ × ν)
  | [], k, v => [(k, v)]
  | (k2, v2) :: rest, k, v =>
    if k2 = k then (k, v) :: rest else (k2, v2) :: dictInsert rest k v

/-- Python `defaultdict(list)` element append `m[k].append(v)`. -/
def updAppend {κ ν : Type} [DecidableEq κ] : List (κ × List ν) → κ → ν → List (κ × List ν)
  | [], k, v => [(k, [v])]
  | (k2, vs) :: rest, k, v =>
    if k2 = k then (k2, vs ++ [v]) :: rest else (k2, vs) :: updAppend rest k v

/-! ## Grouping folds

Both the `defaultdict(list)` loop of `group_files_by_directory`
(git.py lines 124-133) and the `entity_patterns` loop of
`_fallback_intelligent_grouping` (git.py lines 635-651) append each
input element to the bucket of its (optional) key, in input order. -/
/-- One iteration of a bucketing loop: append the element to the bucket
of its key, or do nothing when the key function yields none. -/
def groupStep {κ σ : Type} [DecidableEq κ] (keyF : σ → Option κ)
    (m : List (κ × List σ)) (f : σ) : List (κ × List σ) :=
  match keyF f with
  | some k => updAppend m k f
  | none => m

/-- Bucket the list by the key function, starting from the empty dict. -/
def groupFold {κ σ : Type} [DecidableEq κ] (keyF : σ → Option κ)
    (fs : List σ) : List (κ × List σ) :=
  fs.foldl (groupStep keyF) []

/-- Extension of an optional bucket by newly appended elements. -/
def optExtend {σ : Type} : Option (List σ) → List σ → Option (List σ)
  | some vs, l => some (vs ++ l)
  | none, [] => none
  | none, l => some l

/-- Concatenation of all bucket contents. -/
def joinVals {κ ν : Type} (m : List (κ × List ν)) : List ν :=
  (m.map Prod.snd).flatten

/-! ## Embedding of `group_files_by_directory` (git.py lines 119-135) -/
/-- First-level directory of a path (git.py lines 126-132): the part
before the first separator, or `root` when the path has no separator.
`os.sep` is the POSIX `/`. -/
def rootDirOf (file_path : String) : String :=
  match splitChar '/' file_path.data with
  | [] => "root"
  | [_] => "root"
  | p :: _ :: _ => String.mk p

/-- Embedding of `group_files_by_directory` (git.py lines 119-135): a
`defaultdict(list)` filled by appending each file to the bucket of its
first path segment, in input order. -/
def group_files_by_directory (files : List String) : List (String × List String) :=
  groupFold (fun f => some (rootDirOf f)) files

/-! ## Entity keys of `_fallback_intelligent_grouping` (git.py lines 637-651) -/
/-- Python `os.path.basename` on a character list: everything after the
last separator. -/
def basenameL (l : List Char) : List Char :=
  (l.reverse.takeWhile (fun c => c ≠ '/')).reverse

/-- Index of the last dot, as in CPython `_splitext`. -/
def lastDotIdx (l : List Char) : Option Nat :=
  match l.reverse.findIdx? (fun c => c = '.') with
  | none => none
  | some j => some (l.length - 1 - j)

/-- Root part of CPython `os.path.splitext` for a path without
separators (the code applies it to a basename): cut at the last dot
provided some earlier character is not a dot, so that dotfiles such as
`.bashrc` keep their full name. -/
def splitextRootL (l : List Char) : List Char :=
  match lastDotIdx l with
  | none => l
  | some p => if (l.take p).any (fun c => c ≠ '.') then l.take p else l

/-- ASCII lower-casing of a character list (Python `str.lower` on the
identifiers met here). -/
def lowerL (l : List Char) : List Char := l.map Char.toLower

/-- Strip of the leading role markers `test_` and `spec_`, case
insensitive, one occurrence (git.py line 643). -/
def stripRoleStart (b : List Char) : List Char :=
  if beginsWith (lowerL b) "test_".data || beginsWith (lowerL b) "spec_".data
  then b.drop 5 else b

/-- Alternatives of the underscore suffix regex (git.py line 644). -/
def roleSuffixes : List (List Char) :=
  ["_test".data, "_spec".data, "_controller".data, "_service".data, "_model".data,
   "_schema".data, "_migration".data, "_api".data, "_route".data, "_handler".data]

/-- Strip of one trailing role marker, case insensitive (git.py line
644).  The regex substitutes exactly one match anchored at the end;
since every alternative contains the underscore only as its head, no
two alternatives can match the same string end, so picking the first
match in list order is the regex behaviour. -/
def stripRoleEnd (b : List Char) : List Char :=
  match roleSuffixes.find? (fun suf => endsWithL (lowerL b) suf) with
  | some suf => b.take (b.length - suf.length)
  | none => b

/-- Alternatives of the capitalised suffix regex (git.py line 645). -/
def capSuffixes : List (List Char) :=
  ["Controller".data, "Service".data, "Model".data, "Schema".data, "Migration".data,
   "Api".data, "Route".data, "Handler".data, "Test".data, "Spec".data]

/-- Strip of one trailing capitalised role marker, case sensitive
(git.py line 645); no alternative is a suffix of another, so first
match in list order is again the regex behaviour. -/
def stripCapEnd (b : List Char) : List Char :=
  match capSuffixes.find? (fun suf => endsWithL b suf) with
  | some suf => b.take (b.length - suf.length)
  | none => b

/-- The `cleaned_name` value of git.py lines 639-646 for one path:
basename without extension, role markers stripped, lower-cased. -/
def cleanedNameOf (file_path : String) : String :=
  String.mk (lowerL (stripCapEnd (stripRoleEnd (stripRoleStart
    (splitextRootL (basenameL file_path.data))))))

/-- Entity key of a path (git.py line 648): the cleaned name when it is
non-empty and longer than one character, else no key.  The Python guard
`cleaned_name and len(cleaned_name) > 1` is equivalent to the length
test alone, since an empty string has length zero. -/
def entityKeyOf (file_path : String) : Option String :=
  let k := cleanedNameOf file_path
  if 1 < k.length then some k else none

/-! ## JSON values and Python dynamics

`JVal` is the result of `json.loads` (and, where group names or field
values flow through untyped, any Python value met by the embedded
fragment: JSON produces exactly these shapes).  JSON numbers are
modelled as integers; no claim involves fractional numbers. -/
/-- Decoded JSON value. -/
inductive JVal where
  | null
  | bool (b : Bool)
  | num (n : Int)
  | str (s : String)
  | arr (xs : List JVal)
  | obj (kvs : List (String × JVal))

mutual

def JVal.decEq : (a b : JVal) → Decidable (a = b)
  | .null, .null => isTrue rfl
  | .bool x, .bool y =>
      if h : x = y then isTrue (by rw [h]) else isFalse (by intro hc; cases hc; exact h rfl)
  | .num x, .num y =>
      if h : x = y then isTrue (by rw [h]) else isFalse (by intro hc; cases hc; exact h rfl)
  | .str x, .str y =>
      if h : x = y then isTrue (by rw [h]) else isFalse (by intro hc; cases hc; exact h rfl)
  | .arr xs, .arr ys =>
      match JVal.decEqArr xs ys with
      | isTrue h => isTrue (by rw [h])
      | isFalse h => isFalse (by intro hc; cases hc; exact h rfl)
  | .obj xs, .obj ys =>
      match JVal.decEqObj xs ys with
      | isTrue h => isTrue (by rw [h])
      | isFalse h => isFalse (by intro hc; cases hc; exact h rfl)
  | .null, .bool _ => isFalse (by intro hc; cases hc)
  | .null, .num _ => isFalse (by intro hc; cases hc)
  | .null, .str _ => isFalse (by intro hc; cases hc)
  | .null, .arr _ => isFalse (by intro hc; cases hc)
  | .null, .obj _ => isFalse (by intro hc; cases hc)
  | .bool _, .null => isFalse (by intro hc; cases hc)
  | .bool _, .num _ => isFalse (by intro hc; cases hc)
  | .bool _, .str _ => isFalse (by intro hc; cases hc)
  | .bool _, .arr _ => isFalse (by intro hc; cases hc)
  | .bool _, .obj _ => isFalse (by intro hc; cases hc)
  | .num _, .null => isFalse (by intro hc; cases hc)
  | .num _, .bool _ => isFalse (by intro hc; cases hc)
  | .num _, .str _ => isFalse (by intro hc; cases hc)
  | .num _, .arr _ => isFalse (by intro hc; cases hc)
  | .num _, .obj _ => isFalse (by intro hc; cases hc)
  | .str _, .null => isFalse (by intro hc; cases hc)
  | .str _, .bool _ => isFalse (by intro hc; cases hc)
  | .str _, .num _ => isFalse (by intro hc; cases hc)
  | .str _, .arr _ => isFalse (by intro hc; cases hc)
  | .str _, .obj _ => isFalse (by intro hc; cases hc)
  | .arr _, .null => isFalse (by intro hc; cases hc)
  | .arr _, .bool _ => isFalse (by intro hc; cases hc)
  | .arr _, .num _ => isFalse (by intro hc; cases hc)
  | .arr _, .str _ => isFalse (by intro hc; cases hc)
  | .arr _, .obj _ => isFalse (by intro hc; cases hc)
  | .obj _, .null => isFalse (by intro hc; cases hc)
  | .obj _, .bool _ => isFalse (by intro hc; cases hc)
  | .obj _, .num _ => isFalse (by intro hc; cases hc)
  | .obj _, .str _ => isFalse (by intro hc; cases hc)
  | .obj _, .arr _ => isFalse (by intro hc; cases hc)

def JVal.decEqArr : (xs ys : List JVal) → Decidable (xs = ys)
  | [], [] => isTrue rfl
  | [], _ :: _ => isFalse (by intro hc; cases hc)
  | _ :: _, [] => isFalse (by intro hc; cases hc)
  | x :: xs, y :: ys =>
      match JVal.decEq x y, JVal.decEqArr xs ys with
      | isTrue h1, isTrue h2 => isTrue (by rw [h1, h2])
      | isFalse h1, _ => isFalse (by intro hc; cases hc; exact h1 rfl)
      | isTrue _, isFalse h2 => isFalse (by intro hc; cases hc; exact h2 rfl)

def JVal.decEqObj : (xs ys : List (String × JVal)) → Decidable (xs = ys)
  | [], [] => isTrue rfl
  | [], _ :: _ => isFalse (by intro hc; cases hc)
  | _ :: _, [] => isFalse (by intro hc; cases hc)
  | (k1, v1) :: xs, (k2, v2) :: ys =>
      if h0 : k1 = k2 then
        match JVal.decEq v1 v2, JVal.decEqObj xs ys with
        | isTrue h1, isTrue h2 => isTrue (by rw [h0, h1, h2])
        | isFalse h1, _ => isFalse (by intro hc; cases hc; exact h1 rfl)
        | isTrue _, isFalse h2 => isFalse (by intro hc; cases hc; exact h2 rfl)
      else isFalse (by intro hc; cases hc; exact h0 rfl)

end

instance : DecidableEq JVal := JVal.decEq

/-! ## Group records

One value of the result dict of `parse_relation_groups` and
`_fallback_intelligent_grouping` (git.py lines 588-594, 657-663,
671-677, 680-686).  The `description`, `type` and `commit_messages`
entries carry whatever Python value the decoded JSON supplied, hence
`JVal`; `files` is always a list of strings drawn from the known input
files, and `emoji` a string from the fixed emoji table. -/
structure GroupInfo where
  files : List String
  description : JVal
  ctype : JVal
  emoji : String
  commit_messages : JVal
deriving DecidableEq

/-! ## Embedding of `_fallback_intelligent_grouping` (git.py lines 624-687) -/
/-- Entity bucket dict of git.py lines 635-651: `entity_patterns`. -/
def entityPatternsOf (files : List String) : List (String × List String) :=
  groupFold entityKeyOf files

/-- Group record built for a shared entity (git.py lines 657-663). -/
def entityGroupInfo (entity : String) (entity_files : List String) : GroupInfo :=
  ⟨entity_files, .str ("Changes related to " ++ entity), .str "feature", "📦", .arr []⟩

/-- Group record built for a directory of ungrouped files (git.py
lines 671-677). -/
def dirGroupInfo (dir_name : String) (dir_files : List String) : GroupInfo :=
  ⟨dir_files, .str ("Changes in " ++ dir_name ++ " directory"), .str "chore", "📁", .arr []⟩

/-- Group record of the degenerate `all-changes` group (git.py lines
680-686). -/
def allChangesInfo (files : List String) : GroupInfo :=
  ⟨files, .str "All staged changes", .str "chore", "📦", .arr []⟩

/-- One iteration of the entity loop of git.py lines 654-664: groups
with more than one file become a `-related` group and their files join
the `grouped_files` set. -/
def entityLoopStep (st : List (String × GroupInfo) × List String)
    (kv : String × List String) : List (String × GroupInfo) × List String :=
  if 1 < kv.2.length then
    (dictInsert st.1 (kv.1 ++ "-related") (entityGroupInfo kv.1 kv.2), st.2 ++ kv.2)
  else st

/-- Embedding of `_fallback_intelligent_grouping` (git.py lines
624-687). -/
def fallback_intelligent_grouping (files : List String) : List (String × GroupInfo) :=
  let st := (entityPatternsOf files).foldl entityLoopStep ([], [])
  let ungrouped := files.filter (fun f => !(decide (f ∈ st.2)))
  let groups :=
    if ungrouped.isEmpty then st.1
    else
      (group_files_by_directory ungrouped).foldl
        (fun g kv => dictInsert g (kv.1 ++ "-changes") (dirGroupInfo kv.1 kv.2)) st.1
  if groups.isEmpty then [("all-changes", allChangesInfo files)] else groups

/-- Files of the group of a given name, empty when the name is absent. -/
def groupFilesOf (g : List (String × GroupInfo)) (n : String) : List String :=
  match alookup g n with
  | some gi => gi.files
  | none => []

/-- The `-related` groups of the fallback, in entity first-appearance
order. -/
def entityGroupsOf (files : List String) : List (String × GroupInfo) :=
  ((entityPatternsOf files).filter (fun kv => 1 < kv.2.length)).map
    (fun kv => (kv.1 ++ "-related", entityGroupInfo kv.1 kv.2))

/-- The `grouped_files` set of the fallback after the entity loop. -/
def groupedFilesOf (files : List String) : List String :=
  joinVals ((entityPatternsOf files).filter (fun kv => 1 < kv.2.length))

/-- The `ungrouped` list of git.py line 667. -/
def ungroupedOf (files : List String) : List String :=
  files.filter (fun f => !(decide (f ∈ groupedFilesOf files)))

/-- The `-changes` groups of the fallback. -/
def dirGroupsOf (files : List String) : List (String × GroupInfo) :=
  (group_files_by_directory (ungroupedOf files)).map
    (fun kv => (kv.1 ++ "-changes", dirGroupInfo kv.1 kv.2))

/-- The sharing test of git.py line 655 for an entity key: more than
one input file carries it. -/
def entitySharedB (files : List String) (k : String) : Bool :=
  decide (1 < (files.filter (fun f => entityKeyOf f = some k)).length)

/-- Whether a file is claimed by a shared entity group (git.py lines
654-664). -/
def isClaimedB (files : List String) (f : String) : Bool :=
  match entityKeyOf f with
  | some k => entitySharedB files k
  | none => false

/-- Entity key exactly as claim C4 words it: basename without extension,
with the role markers `test_`/`spec_` at the start and the underscore
suffixes at the end stripped case-insensitively, lower-cased, kept only
when longer than one character.  The code (git.py line 645) additionally
strips the capitalised suffix forms `Controller`, ..., `Test`, `Spec`
case-sensitively before lower-casing; this definition follows the claim
text, which omits that step, and is compared against the code. -/
def claimedEntityKeyOf (file_path : String) : Option String :=
  let k := String.mk (lowerL (stripRoleEnd (stripRoleStart
    (splitextRootL (basenameL file_path.data)))))
  if 1 < k.length then some k else none

/-! ## Embedding of `parse_relation_groups` (git.py lines 513-621)

The `try` block catches `json.JSONDecodeError`, `KeyError` and
`TypeError` and falls back to the heuristic grouping; any other
exception propagates to the caller.  In the embedded fragment the
reachable exceptions are `TypeError` (iterating a number, an unhashable
group name, `os.path.normpath` of a non-string, an unhashable dict-get
key) and `AttributeError` (`.get` on a group entry that is not a
dict); `KeyError` cannot arise since every dict access uses `.get`
with a default. -/
/-- Python exceptions reachable in the embedded fragment. -/
inductive PyExc where
  | typeError
  | attributeError
deriving DecidableEq

/-- Python truthiness of a decoded value. -/
def truthy : JVal → Bool
  | .null => false
  | .bool b => b
  | .num n => decide (n ≠ 0)
  | .str s => decide (s ≠ "")
  | .arr xs => !xs.isEmpty
  | .obj kvs => !kvs.isEmpty

/-- Python hashability: lists and dicts are unhashable. -/
def hashable : JVal → Bool
  | .arr _ => false
  | .obj _ => false
  | _ => true

/-- Python `str()` of the values that can reach the f-string of git.py
line 584.  Lists and dicts never reach it: an unhashable group name
raises `TypeError` at the `in` test of line 583 first. -/
def pyStr : JVal → String
  | .str s => s
  | .num n => toString n
  | .bool b => if b then "True" else "False"
  | .null => "None"
  | .arr _ => ""
  | .obj _ => ""

/-- Python iteration over a decoded value (`for group_data in
groups_list`, `for f in files`): lists yield their items, strings their
characters as one-character strings, dicts their keys; other values
raise `TypeError`. -/
def pyIterList : JVal → Except PyExc (List JVal)
  | .arr xs => .ok xs
  | .str s => .ok (s.data.map (fun c => JVal.str (String.mk [c])))
  | .obj kvs => .ok (kvs.map (fun kv => JVal.str kv.1))
  | _ => .error .typeError

/-- CPython `posixpath.normpath`. -/
def normpath (path : String) : String :=
  if path = "" then "." else
  let l := path.data
  let initialSlashes : Nat :=
    if beginsWith l "//".data ∧ ¬(beginsWith l "///".data) then 2
    else if beginsWith l "/".data then 1
    else 0
  let comps := splitChar '/' l
  let newComps := comps.foldl
    (fun acc comp =>
      if comp = [] ∨ comp = ".".data then acc
      else if comp ≠ "..".data ∨ (initialSlashes = 0 ∧ acc = []) ∨
          (acc ≠ [] ∧ acc.getLast? = some "..".data) then acc ++ [comp]
      else if acc ≠ [] then acc.dropLast
      else acc) []
  let res := List.replicate initialSlashes '/' ++ joinChar '/' newComps
  if res = [] then "." else String.mk res

/-- Fuzzy path validation of git.py lines 569-574: first try normalized
equality, then suffix containment either way; the first match in input
order wins and the inner loop breaks. -/
def matchFile (all_files : List String) (f : String) : List String :=
  let normalized := normpath f
  match all_files.find? (fun actual_file =>
      normpath actual_file = normalized || endsWithS actual_file f ||
        endsWithS f actual_file) with
  | some actual_file => [actual_file]
  | none => []

/-- Python `list(dict.fromkeys(l))`: first-occurrence deduplication
(git.py line 577). -/
def pyDedupAux (seen : List String) : List String → List String
  | [] => []
  | x :: xs => if x ∈ seen then pyDedupAux seen xs else x :: pyDedupAux (x :: seen) xs

/-- Python `list(dict.fromkeys(l))`. -/
def pyDedup (l : List String) : List String := pyDedupAux [] l

/-- The `type_emoji` table of git.py lines 539-547. -/
def type_emoji : List (String × String) :=
  [("feature", "✨"), ("bugfix", "🐛"), ("refactor", "♻️"), ("config", "⚙️"),
   ("docs", "📝"), ("test", "🧪"), ("chore", "🔧")]

/-- Python `type_emoji.get(change_type, default)` (git.py line 587):
lookup for strings, the default for other hashable values, `TypeError`
for unhashable ones. -/
def typeEmojiGet : JVal → Except PyExc String
  | .str s => .ok ((alookup type_emoji s).getD "📦")
  | .num _ => .ok "📦"
  | .bool _ => .ok "📦"
  | .null => .ok "📦"
  | .arr _ => .error .typeError
  | .obj _ => .error .typeError

/-- The `while group_name in result` loop of git.py lines 581-585,
with fuel: candidate names `base-1`, `base-2`, ... are pairwise
distinct strings, so among the first `|keys| + 1` of them at least one
is absent from the keys and the loop stops within the supplied fuel;
the zero-fuel arm is unreachable. -/
def resolveNameLoop (ks : List JVal) (base : String) : Nat → Nat → String
  | 0, c => base ++ "-" ++ toString c
  | fuel + 1, c =>
    let cand := base ++ "-" ++ toString c
    if JVal.str cand ∈ ks then resolveNameLoop ks base fuel (c + 1) else cand

/-- Group-name collision resolution (git.py lines 580-585): an
unhashable name raises `TypeError` at the membership test; a fresh
name is kept; a colliding name gets the first free numeric suffix. -/
def resolveGroupName (res : List (JVal × GroupInfo)) (group_name : JVal) :
    Except PyExc JVal :=
  if hashable group_name = false then .error .typeError
  else if group_name ∈ keysOf res then
    .ok (.str (resolveNameLoop (keysOf res) (pyStr group_name) (res.length + 1) 1))
  else .ok group_name

/-- The five fields read from one parsed group object (git.py lines
550-561), before validation. -/
structure RawFields where
  group : JVal
  filesV : JVal
  description : JVal
  ctype : JVal
  commit_messages : JVal
deriving DecidableEq

/-- Field extraction with defaults of git.py lines 550-561, including
the legacy scalar `commit_message` fallback taken when
`commit_messages` is absent or falsy. -/
def extractFields (kvs : List (String × JVal)) : RawFields :=
  let group_name := (alookup kvs "group").getD (.str "unknown")
  let files := (alookup kvs "files").getD (.arr [])
  let description := (alookup kvs "description").getD (.str "")
  let change_type := (alookup kvs "type").getD (.str "chore")
  let cm0 := (alookup kvs "commit_messages").getD (.arr [])
  let commit_messages :=
    if truthy cm0 then cm0
    else
      let single_message := (alookup kvs "commit_message").getD (.str "")
      if truthy single_message then JVal.arr [single_message] else cm0
  ⟨group_name, files, description, change_type, commit_messages⟩

/-- One step of the file-validation loop of git.py lines 564-574: an
exact match is kept as is, a string that is no exact match goes
through fuzzy matching, and a non-string raises `TypeError` at
`os.path.normpath` (the preceding `f in all_files` test is false for
every non-string, Python equality between a string and any other
value). -/
def validFileStep (all_files : List String) (acc : List String) (f : JVal) :
    Except PyExc (List String) :=
  match f with
  | .str s =>
    if s ∈ all_files then .ok (acc ++ [s])
    else .ok (acc ++ matchFile all_files s)
  | _ => .error .typeError

/-- The validated file list of one group (git.py lines 563-577),
deduplicated preserving order. -/
def validFilesOf (all_files : List String) (filesV : JVal) :
    Except PyExc (List String) :=
  match pyIterList filesV with
  | .error e => .error e
  | .ok items =>
    match items.foldlM (validFileStep all_files) [] with
    | .error e => .error e
    | .ok raw => .ok (pyDedup raw)

/-- State of the parsing loop: the result dict and the
`grouped_files` set. -/
structure PRGState where
  result : List (JVal × GroupInfo)
  grouped : List String

/-- Processing of one parsed group (git.py lines 549-595): a non-dict
entry raises `AttributeError` at `.get`; a dict entry contributes a
group when it claims at least one valid file, resolving name
collisions and attaching the emoji of its change type. -/
def processGroup (all_files : List String) (st : PRGState) (gd : JVal) :
    Except PyExc PRGState :=
  match gd with
  | .obj kvs =>
    let rf := extractFields kvs
    match validFilesOf all_files rf.filesV with
    | .error e => .error e
    | .ok valid_files =>
      if valid_files.isEmpty then .ok st
      else
        match resolveGroupName st.result rf.group with
        | .error e => .error e
        | .ok finalName =>
          match typeEmojiGet rf.ctype with
          | .error e => .error e
          | .ok emoji =>
            .ok ⟨dictInsert st.result finalName
                  ⟨valid_files, rf.description, rf.ctype, emoji, rf.commit_messages⟩,
                st.grouped ++ valid_files⟩
  | _ => .error .attributeError

/-- The record of the synthetic `miscellaneous-changes` group (git.py
lines 601-607). -/
def miscInfo (ungrouped : List String) : GroupInfo :=
  ⟨ungrouped, .str "Other changes not directly related to main features",
   .str "chore", "📦", .arr []⟩

/-- The `try` body of `parse_relation_groups` after JSON decoding
(git.py lines 535-609). -/
def parseGroupsCore (v : JVal) (all_files : List String) :
    Except PyExc (List (JVal × GroupInfo)) :=
  match pyIterList v with
  | .error e => .error e
  | .ok elems =>
    match elems.foldlM (processGroup all_files) ⟨[], []⟩ with
    | .error e => .error e
    | .ok st =>
      let ungrouped := all_files.filter (fun f => !(decide (f ∈ st.grouped)))
      if ungrouped.isEmpty then .ok st.result
      else .ok (dictInsert st.result (.str "miscellaneous-changes") (miscInfo ungrouped))

/-- The heuristic fallback result as it appears to callers of
`parse_relation_groups`: Python string keys, embedded as `JVal.str`. -/
def fallbackAsResult (all_files : List String) : List (JVal × GroupInfo) :=
  (fallback_intelligent_grouping all_files).map (fun kv => (JVal.str kv.1, kv.2))

/-- Embedding of `parse_relation_groups` (git.py lines 513-621).  The
decoded JSON (or `none` for a `json.JSONDecodeError`) is the input;
`TypeError` (and the unreachable `KeyError`) is caught and answered
with the heuristic fallback, `AttributeError` escapes to the caller. -/
def parse_relation_groups (decoded : Option JVal) (all_files : List String) :
    Except PyExc (List (JVal × GroupInfo)) :=
  match decoded with
  | none => .ok (fallbackAsResult all_files)
  | some v =>
    match parseGroupsCore v all_files with
    | .ok r => .ok r
    | .error .typeError => .ok (fallbackAsResult all_files)
    | .error .attributeError => .error .attributeError

/-- Files of the group of a given name in a parse result. -/
def groupFilesOfJ (r : List (JVal × GroupInfo)) (n : JVal) : List String :=
  match alookup r n with
  | some gi => gi.files
  | none => []

/-- Key uniqueness of a `parse_relation_groups` outcome (trivially true
of a raised exception). -/
def keysNodupOutcome : Except PyExc (List (JVal × GroupInfo)) → Prop
  | .ok r => (keysOf r).Nodup
  | .error _ => True

/-! ## Embedding of the diff section of `generate_relation_grouping_prompt`
(git.py lines 437-444).  The rest of that function assembles constant
prompt text and does not touch the diffs; the claims concern only the
per-file entries built here. -/
/-- The per-file diff entry of git.py line 439.  Python conditional
expression precedence binds the concatenation first, so an over-long
diff is cut to its first 3000 characters and the 16-character marker
is appended to the truncated text. -/
def truncated_diff (diff : String) : String :=
  if 3000 < diff.length then String.mk (diff.data.take 3000) ++ "\n... [truncated]"
  else diff

/-- The block of lines appended to `prompt_parts` for one file of the
diff section (git.py lines 440-444). -/
def diffBlock (kv : String × String) : List String :=
  ["### FILE: " ++ kv.1, "```diff", truncated_diff kv.2, "```", ""]

/-- The diff section of the prompt (git.py lines 437-444), in input
order. -/
def prompt_diff_parts (diffs : List (String × String)) : List String :=
  diffs.foldl (fun prompt_parts kv => prompt_parts ++ diffBlock kv) []

/-! ## Lemmas about the string helpers -/
theorem pyStripLeftL_idem (l : List Char) : pyStripLeftL (pyStripLeftL l) = pyStripLeftL l := by
  simp [pyStripLeftL, List.dropWhile_idempotent]

theorem head_pyStripLeftL_not_space (l : List Char) (c : Char)
    (h : (pyStripLeftL l).head? = some c) : isPySpace c = false := by
  induction l with
  | nil => simp [pyStripLeftL] at h
  | cons a as ih =>
    cases ha : isPySpace a
    · have hc : a = c := by
        simpa [pyStripLeftL, List.dropWhile_cons, ha] using h
      exact hc ▸ ha
    · exact ih (by simpa [pyStripLeftL, List.dropWhile_cons, ha] using h)

theorem pyStripRightL_eq_rdropWhile (l : List Char) :
    pyStripRightL l = l.rdropWhile isPySpace := rfl

theorem pyStripRightL_idem (l : List Char) : pyStripRightL (pyStripRightL l) = pyStripRightL l := by
  simp [pyStripRightL_eq_rdropWhile, List.rdropWhile_idempotent]

/-- A right trim of a left-trimmed list is still left-trimmed. -/
theorem pyStripLeftL_pyStripRightL (l : List Char)
    (h : pyStripLeftL l = l) : pyStripLeftL (pyStripRightL l) = pyStripRightL l := by
  have hpre : (pyStripRightL l) <+: l := by
    rw [pyStripRightL_eq_rdropWhile]
    exact List.rdropWhile_prefix isPySpace l
  cases hl : pyStripRightL l with
  | nil => simp [pyStripLeftL]
  | cons c cs =>
    have hcl : ∃ t, l = c :: (cs ++ t) := by
      obtain ⟨t, ht⟩ := hpre
      exact ⟨t, by simpa [hl] using ht.symm⟩
    obtain ⟨t, ht⟩ := hcl
    have hc : isPySpace c = false := by
      have := head_pyStripLeftL_not_space l c
      rw [h, ht] at this
      exact this (by simp)
    simp [pyStripLeftL, List.dropWhile_cons, hc]

theorem pyStripL_idem (l : List Char) : pyStripL (pyStripL l) = pyStripL l := by
  unfold pyStripL
  rw [pyStripLeftL_pyStripRightL (pyStripLeftL l) (pyStripLeftL_idem l), pyStripRightL_idem]

theorem pyStrip_idem (s : String) : pyStrip (pyStrip s) = pyStrip s := by
  simp [pyStrip, pyStripL_idem]

theorem pyStripL_eq_nil_of_all_space (l : List Char)
    (h : ∀ c ∈ l, isPySpace c = true) : pyStripL l = [] := by
  have : pyStripLeftL l = [] := by
    induction l with
    | nil => rfl
    | cons a as ih =>
      simp only [pyStripLeftL, List.dropWhile_cons]
      rw [h a (by simp)]
      simpa [pyStripLeftL] using ih (fun c hc => h c (by simp [hc]))
  simp [pyStripL, this, pyStripRightL]

theorem splitChar_ne_nil (sep : Char) (l : List Char) : splitChar sep l ≠ [] := by
  cases l with
  | nil => simp [splitChar]
  | cons a as =>
    simp only [splitChar]
    cases splitChar sep as with
    | nil => simp
    | cons q qs =>
      by_cases ha : a = sep <;> simp [ha]

/-- Every piece of a split is a sublist of the split string. -/
theorem sublist_of_mem_splitChar (sep : Char) (l p : List Char)
    (hp : p ∈ splitChar sep l) : p.Sublist l := by
  induction l generalizing p with
  | nil =>
    simp [splitChar] at hp
    simp [hp]
  | cons a as ih =>
    cases hsp : splitChar sep as with
    | nil => exact absurd hsp (splitChar_ne_nil sep as)
    | cons q qs =>
      have hstep : splitChar sep (a :: as) =
          if a = sep then [] :: q :: qs else (a :: q) :: qs := by
        simp only [splitChar, hsp]
      rw [hstep] at hp
      by_cases ha : a = sep
      · rw [if_pos ha] at hp
        rcases List.mem_cons.mp hp with hp | hp
        · simp [hp]
        · exact (ih p (by rw [hsp]; exact hp)).cons a
      · rw [if_neg ha] at hp
        rcases List.mem_cons.mp hp with hp | hp
        · subst hp
          exact (ih q (by rw [hsp]; exact List.mem_cons_self q qs)).cons₂ a
        · exact (ih p (by rw [hsp]; exact List.mem_cons_of_mem q hp)).cons a

theorem mem_of_mem_splitChar (sep : Char) (l p : List Char) (c : Char)
    (hp : p ∈ splitChar sep l) (hc : c ∈ p) : c ∈ l :=
  (sublist_of_mem_splitChar sep l p hp).mem hc

/-- The loop of `sanitize_commit_messages` equals the spec-side
map-then-filter pipeline. -/
theorem sanitizeLoop_eq_spec (xs : List String) :
    sanitizeLoop xs =
      (xs.map pyStrip).filter
        (fun m => m ≠ "" && !(beginsWithS m "Error generating commit message:")) := by
  induction xs with
  | nil => rfl
  | cons m rest ih =>
    by_cases hm : m = ""
    · subst hm
      simp [sanitizeLoop, ih, pyStrip, pyStripL, pyStripLeftL, pyStripRightL]
    · simp only [sanitizeLoop, if_neg hm, List.map_cons, List.filter_cons]
      by_cases herr : beginsWithS (pyStrip m) "Error generating commit message:"
      · simp [herr, ih]
      · by_cases hms : pyStrip m = ""
        · simp [herr, hms, ih, pyStrip_idem]
        · simp [herr, hms, ih, pyStrip_idem]

theorem all_space_of_pyStripL_eq_nil (l : List Char)
    (h : pyStripL l = []) : ∀ c ∈ l, isPySpace c = true := by
  intro c hc
  have hsplit : l = l.takeWhile isPySpace ++ l.dropWhile isPySpace :=
    (List.takeWhile_append_dropWhile isPySpace l).symm
  rw [hsplit] at hc
  rcases List.mem_append.mp hc with hc | hc
  · exact List.mem_takeWhile_imp hc
  · have : (l.dropWhile isPySpace).rdropWhile isPySpace = [] := h
    exact (List.rdropWhile_eq_nil_iff.mp this) c hc

theorem sanitizeSpec_str_nil_of_stripped (s : String) (h : pyStrip s = "") :
    sanitizeSpec (.str s) = [] := by
  simp only [sanitizeSpec]
  rw [List.filter_eq_nil_iff]
  intro m hm
  rcases List.mem_map.mp hm with ⟨piece, hpmem, hpeq⟩
  rcases List.mem_map.mp hpmem with ⟨pl, hplmem, hpleq⟩
  have hall : ∀ c ∈ s.data, isPySpace c = true :=
    all_space_of_pyStripL_eq_nil s.data (congrArg String.data h)
  have hms : m = "" := by
    rw [← hpeq, ← hpleq]
    show pyStrip (String.mk pl) = ""
    have : pyStripL pl = [] :=
      pyStripL_eq_nil_of_all_space pl
        (fun c hc => hall c (mem_of_mem_splitChar '|' s.data pl c hplmem hc))
    simp [pyStrip, this]
  simp [hms]

/-- Claim C3. For every input to `sanitize_commit_messages`, a single
string or a list of strings, the result is the candidate list obtained
by splitting a string input on the pipe character, trimming every
candidate, dropping empty candidates and dropping every candidate whose
text begins with the literal marker `Error generating commit message:`;
in particular the spec example input yields exactly its two surviving
candidates. -/
theorem claim_C3 :
    (∀ inp, sanitize_commit_messages inp = sanitizeSpec inp) ∧
      sanitize_commit_messages
        (.str "feat: x|Error generating commit message: timeout|fix: y") =
        ["feat: x", "fix: y"] := by
  constructor
  · intro inp
    cases inp with
    | list xs => exact sanitizeLoop_eq_spec xs
    | str s =>
      by_cases hs : s = "" ∨ pyStrip s = ""
      · rw [sanitize_commit_messages, if_pos hs]
        rcases hs with hs | hs
        · subst hs; rfl
        · exact (sanitizeSpec_str_nil_of_stripped s hs).symm
      · rw [sanitize_commit_messages, if_neg hs]
        exact sanitizeLoop_eq_spec (pySplitPipe s)
  · rfl

/-- Claim C6. Applying the candidate filter twice to a list of strings
yields the same result as applying it once. -/
theorem claim_C6 (ms : List String) :
    sanitize_commit_messages (.list (sanitize_commit_messages (.list ms))) =
      sanitize_commit_messages (.list ms) := by
  show sanitizeLoop (sanitizeLoop ms) = sanitizeLoop ms
  rw [sanitizeLoop_eq_spec ms, sanitizeLoop_eq_spec]
  set p : String → Bool :=
    fun m => m ≠ "" && !(beginsWithS m "Error generating commit message:") with hp
  have hmap : ((ms.map pyStrip).filter p).map pyStrip = (ms.map pyStrip).filter p := by
    have hcongr : ∀ m ∈ (ms.map pyStrip).filter p, pyStrip m = id m := by
      intro m hm
      rcases List.mem_map.mp (List.mem_of_mem_filter hm) with ⟨x, _, hx⟩
      rw [← hx]
      exact pyStrip_idem x
    rw [List.map_congr_left hcongr, List.map_id]
  rw [hmap, List.filter_filter]
  apply List.filter_congr
  intro m _
  simp [Bool.and_self]

@[simp] theorem keysOf_nil {κ ν : Type} : keysOf ([] : List (κ × ν)) = [] := rfl

@[simp] theorem keysOf_cons {κ ν : Type} (a : κ) (b : ν) (l : List (κ × ν)) :
    keysOf ((a, b) :: l) = a :: keysOf l := rfl

@[simp] theorem keysOf_append {κ ν : Type} (l1 l2 : List (κ × ν)) :
    keysOf (l1 ++ l2) = keysOf l1 ++ keysOf l2 := List.map_append _ l1 l2

theorem keysOf_dictInsert {κ ν : Type} [DecidableEq κ] (m : List (κ × ν)) (k : κ) (v : ν) :
    keysOf (dictInsert m k v) = if k ∈ keysOf m then keysOf m else keysOf m ++ [k] := by
  induction m with
  | nil => simp [dictInsert]
  | cons kv rest ih =>
    obtain ⟨k2, v2⟩ := kv
    by_cases hk : k2 = k
    · subst hk
      simp [dictInsert]
    · have hne : k ≠ k2 := fun hc => hk hc.symm
      by_cases hmem : k ∈ keysOf rest
      · rw [if_pos (by simp [hmem])]
        simp only [dictInsert, if_neg hk, keysOf_cons]
        rw [ih, if_pos hmem]
      · rw [if_neg (by simp [hne, hmem])]
        simp only [dictInsert, if_neg hk, keysOf_cons]
        rw [ih, if_neg hmem]
        simp

theorem nodup_keysOf_dictInsert {κ ν : Type} [DecidableEq κ]
    (m : List (κ × ν)) (k : κ) (v : ν) (h : (keysOf m).Nodup) :
    (keysOf (dictInsert m k v)).Nodup := by
  rw [keysOf_dictInsert]
  by_cases hmem : k ∈ keysOf m
  · simpa [hmem] using h
  · simpa [hmem, List.nodup_append] using h

theorem dictInsert_eq_append {κ ν : Type} [DecidableEq κ]
    (m : List (κ × ν)) (k : κ) (v : ν) (h : k ∉ keysOf m) :
    dictInsert m k v = m ++ [(k, v)] := by
  induction m with
  | nil => rfl
  | cons kv rest ih =>
    obtain ⟨k2, v2⟩ := kv
    have hk : k2 ≠ k := by
      intro hc
      exact h (by simp [hc])
    simp only [dictInsert, if_neg hk, List.cons_append, List.cons.injEq, true_and]
    exact ih (fun hc => h (by simp [hc]))

theorem alookup_updAppend_self {κ ν : Type} [DecidableEq κ]
    (m : List (κ × List ν)) (k : κ) (v : ν) :
    alookup (updAppend m k v) k = some (((alookup m k).getD []) ++ [v]) := by
  induction m with
  | nil => simp [updAppend, alookup]
  | cons kv rest ih =>
    obtain ⟨k2, vs⟩ := kv
    by_cases hk : k2 = k
    · subst hk
      simp [updAppend, alookup]
    · simp only [updAppend, if_neg hk, alookup, ih]

theorem alookup_updAppend_ne {κ ν : Type} [DecidableEq κ]
    (m : List (κ × List ν)) (k k2 : κ) (v : ν) (h : k2 ≠ k) :
    alookup (updAppend m k v) k2 = alookup m k2 := by
  induction m with
  | nil => simp [updAppend, alookup, Ne.symm h]
  | cons kv rest ih =>
    obtain ⟨k3, vs⟩ := kv
    by_cases hk : k3 = k
    · subst hk
      simp only [updAppend, if_pos rfl, alookup]
      rw [if_neg (fun hc => h hc.symm), if_neg (fun hc => h hc.symm)]
    · simp only [updAppend, if_neg hk, alookup, ih]

theorem keysOf_updAppend {κ ν : Type} [DecidableEq κ]
    (m : List (κ × List ν)) (k : κ) (v : ν) :
    keysOf (updAppend m k v) = if k ∈ keysOf m then keysOf m else keysOf m ++ [k] := by
  induction m with
  | nil => simp [updAppend]
  | cons kv rest ih =>
    obtain ⟨k2, vs⟩ := kv
    by_cases hk : k2 = k
    · subst hk
      simp [updAppend]
    · have hne : k ≠ k2 := fun hc => hk hc.symm
      by_cases hmem : k ∈ keysOf rest
      · rw [if_pos (by simp [hmem])]
        simp only [updAppend, if_neg hk, keysOf_cons]
        rw [ih, if_pos hmem]
      · rw [if_neg (by simp [hne, hmem])]
        simp only [updAppend, if_neg hk, keysOf_cons]
        rw [ih, if_neg hmem]
        simp

theorem nodup_keysOf_updAppend {κ ν : Type} [DecidableEq κ]
    (m : List (κ × List ν)) (k : κ) (v : ν) (h : (keysOf m).Nodup) :
    (keysOf (updAppend m k v)).Nodup := by
  rw [keysOf_updAppend]
  by_cases hmem : k ∈ keysOf m
  · simpa [hmem] using h
  · simpa [hmem, List.nodup_append] using h

theorem alookup_append {κ ν : Type} [DecidableEq κ]
    (m1 m2 : List (κ × ν)) (k : κ) :
    alookup (m1 ++ m2) k =
      match alookup m1 k with
      | some v => some v
      | none => alookup m2 k := by
  induction m1 with
  | nil => simp [alookup]
  | cons kv rest ih =>
    obtain ⟨k2, v2⟩ := kv
    by_cases hk : k2 = k
    · simp [alookup, hk]
    · simp [alookup, hk, ih]

theorem alookup_eq_none_iff {κ ν : Type} [DecidableEq κ]
    (m : List (κ × ν)) (k : κ) :
    alookup m k = none ↔ k ∉ keysOf m := by
  induction m with
  | nil => simp [alookup]
  | cons kv rest ih =>
    obtain ⟨k2, v2⟩ := kv
    by_cases hk : k2 = k
    · subst hk
      simp [alookup]
    · have hne : k ≠ k2 := fun hc => hk hc.symm
      simp [alookup, hk, ih, hne]

theorem mem_of_alookup_eq_some {κ ν : Type} [DecidableEq κ]
    (m : List (κ × ν)) (k : κ) (v : ν) (h : alookup m k = some v) : (k, v) ∈ m := by
  induction m with
  | nil => simp [alookup] at h
  | cons kv rest ih =>
    obtain ⟨k2, v2⟩ := kv
    by_cases hk : k2 = k
    · subst hk
      have hv : v2 = v := by simpa [alookup] using h
      simp [hv]
    · simp only [alookup, if_neg hk] at h
      exact List.mem_cons_of_mem _ (ih h)

theorem alookup_eq_some_of_mem_nodup {κ ν : Type} [DecidableEq κ]
    (m : List (κ × ν)) (k : κ) (v : ν) (hnd : (keysOf m).Nodup)
    (hmem : (k, v) ∈ m) : alookup m k = some v := by
  induction m with
  | nil => simp at hmem
  | cons kv rest ih =>
    obtain ⟨k2, v2⟩ := kv
    rcases List.mem_cons.mp hmem with hm | hm
    · rw [Prod.mk.injEq] at hm
      obtain ⟨hk, hv⟩ := hm
      subst hk; subst hv
      simp [alookup]
    · have hk : k2 ≠ k := by
        intro hc
        subst hc
        have hinkeys : k2 ∈ keysOf rest := by
          simp only [keysOf, List.mem_map]
          exact ⟨(k2, v), hm, rfl⟩
        have := (List.nodup_cons.mp (by simpa using hnd)).1
        exact this hinkeys
      simp only [alookup, if_neg hk]
      exact ih (List.nodup_cons.mp (by simpa using hnd)).2 hm

theorem mem_keysOf_of_mem {κ ν : Type} (m : List (κ × ν)) (k : κ) (v : ν)
    (h : (k, v) ∈ m) : k ∈ keysOf m := by
  simp only [keysOf, List.mem_map]
  exact ⟨(k, v), h, rfl⟩

theorem optExtend_nil {σ : Type} (o : Option (List σ)) : optExtend o [] = o := by
  cases o <;> simp [optExtend]

theorem alookup_foldl_groupStep {κ σ : Type} [DecidableEq κ] (keyF : σ → Option κ)
    (fs : List σ) (m : List (κ × List σ)) (k : κ) :
    alookup (fs.foldl (groupStep keyF) m) k =
      optExtend (alookup m k) (fs.filter (fun f => keyF f = some k)) := by
  induction fs generalizing m with
  | nil => simp [optExtend_nil]
  | cons f fs ih =>
    simp only [List.foldl_cons, List.filter_cons]
    cases hkf : keyF f with
    | none =>
      have hstep : groupStep keyF m f = m := by simp [groupStep, hkf]
      rw [hstep, ih]
      simp
    | some k2 =>
      have hstep : groupStep keyF m f = updAppend m k2 f := by simp [groupStep, hkf]
      by_cases hk : k2 = k
      · subst hk
        rw [hstep, ih, alookup_updAppend_self]
        cases halo : alookup m k2 with
        | none => simp [optExtend]
        | some vs => simp [optExtend]
      · rw [hstep, ih, alookup_updAppend_ne m k2 k f (fun hc => hk hc.symm)]
        simp [hk]

theorem alookup_groupFold {κ σ : Type} [DecidableEq κ] (keyF : σ → Option κ)
    (fs : List σ) (k : κ) :
    alookup (groupFold keyF fs) k =
      optExtend none (fs.filter (fun f => keyF f = some k)) := by
  rw [groupFold, alookup_foldl_groupStep]
  rfl

theorem mem_keysOf_foldl_groupStep {κ σ : Type} [DecidableEq κ] (keyF : σ → Option κ)
    (fs : List σ) (m : List (κ × List σ)) (k : κ) :
    k ∈ keysOf (fs.foldl (groupStep keyF) m) ↔
      k ∈ keysOf m ∨ ∃ f ∈ fs, keyF f = some k := by
  induction fs generalizing m with
  | nil => simp
  | cons f fs ih =>
    simp only [List.foldl_cons]
    cases hkf : keyF f with
    | none =>
      have hstep : groupStep keyF m f = m := by simp [groupStep, hkf]
      rw [hstep, ih]
      constructor
      · rintro (hm | ⟨g, hg, hgk⟩)
        · exact Or.inl hm
        · exact Or.inr ⟨g, List.mem_cons_of_mem f hg, hgk⟩
      · rintro (hm | ⟨g, hg, hgk⟩)
        · exact Or.inl hm
        · rcases List.mem_cons.mp hg with hg | hg
          · subst hg; rw [hkf] at hgk; cases hgk
          · exact Or.inr ⟨g, hg, hgk⟩
    | some k2 =>
      have hstep : groupStep keyF m f = updAppend m k2 f := by simp [groupStep, hkf]
      rw [hstep, ih]
      have hkeys : k ∈ keysOf (updAppend m k2 f) ↔ k = k2 ∨ k ∈ keysOf m := by
        rw [keysOf_updAppend]
        by_cases hmem : k2 ∈ keysOf m
        · rw [if_pos hmem]
          constructor
          · exact Or.inr
          · rintro (hk | hk)
            · exact hk ▸ hmem
            · exact hk
        · rw [if_neg hmem]
          simp [List.mem_append, or_comm]
      rw [hkeys]
      constructor
      · rintro ((hk | hm) | ⟨g, hg, hgk⟩)
        · exact Or.inr ⟨f, List.mem_cons_self f fs, by rw [hkf, hk]⟩
        · exact Or.inl hm
        · exact Or.inr ⟨g, List.mem_cons_of_mem f hg, hgk⟩
      · rintro (hm | ⟨g, hg, hgk⟩)
        · exact Or.inl (Or.inr hm)
        · rcases List.mem_cons.mp hg with hg | hg
          · subst hg
            rw [hkf] at hgk
            exact Or.inl (Or.inl (by injection hgk with h2; exact h2.symm))
          · exact Or.inr ⟨g, hg, hgk⟩

theorem mem_keysOf_groupFold {κ σ : Type} [DecidableEq κ] (keyF : σ → Option κ)
    (fs : List σ) (k : κ) :
    k ∈ keysOf (groupFold keyF fs) ↔ ∃ f ∈ fs, keyF f = some k := by
  rw [groupFold, mem_keysOf_foldl_groupStep]
  simp

theorem nodup_keysOf_foldl_groupStep {κ σ : Type} [DecidableEq κ] (keyF : σ → Option κ)
    (fs : List σ) (m : List (κ × List σ)) (h : (keysOf m).Nodup) :
    (keysOf (fs.foldl (groupStep keyF) m)).Nodup := by
  induction fs generalizing m with
  | nil => exact h
  | cons f fs ih =>
    simp only [List.foldl_cons]
    cases hkf : keyF f with
    | none =>
      have hstep : groupStep keyF m f = m := by simp [groupStep, hkf]
      rw [hstep]; exact ih m h
    | some k2 =>
      have hstep : groupStep keyF m f = updAppend m k2 f := by simp [groupStep, hkf]
      rw [hstep]
      exact ih _ (nodup_keysOf_updAppend m k2 f h)

theorem nodup_keysOf_groupFold {κ σ : Type} [DecidableEq κ] (keyF : σ → Option κ)
    (fs : List σ) : (keysOf (groupFold keyF fs)).Nodup :=
  nodup_keysOf_foldl_groupStep keyF fs [] (by simp)

theorem values_ne_nil_updAppend {κ ν : Type} [DecidableEq κ]
    (m : List (κ × List ν)) (k : κ) (v : ν)
    (h : ∀ kv ∈ m, kv.2 ≠ []) : ∀ kv ∈ updAppend m k v, kv.2 ≠ [] := by
  induction m with
  | nil =>
    intro kv hkv
    simp [updAppend] at hkv
    simp [hkv]
  | cons kv2 rest ih =>
    obtain ⟨k2, vs⟩ := kv2
    intro kv hkv
    by_cases hk : k2 = k
    · subst hk
      have hstep : updAppend ((k2, vs) :: rest) k2 v = (k2, vs ++ [v]) :: rest := by
        simp [updAppend]
      rw [hstep] at hkv
      rcases List.mem_cons.mp hkv with hkv2 | hkv2
      · simp [hkv2]
      · exact h kv (List.mem_cons_of_mem _ hkv2)
    · have hstep : updAppend ((k2, vs) :: rest) k v = (k2, vs) :: updAppend rest k v := by
        simp [updAppend, hk]
      rw [hstep] at hkv
      rcases List.mem_cons.mp hkv with hkv2 | hkv2
      · exact hkv2 ▸ h (k2, vs) (List.mem_cons_self _ _)
      · exact ih (fun kv3 hkv3 => h kv3 (List.mem_cons_of_mem _ hkv3)) kv hkv2

theorem values_ne_nil_groupFold {κ σ : Type} [DecidableEq κ] (keyF : σ → Option κ)
    (fs : List σ) : ∀ kv ∈ groupFold keyF fs, kv.2 ≠ [] := by
  rw [groupFold]
  have haux : ∀ (gs : List σ) (m : List (κ × List σ)), (∀ kv ∈ m, kv.2 ≠ []) →
      ∀ kv ∈ gs.foldl (groupStep keyF) m, kv.2 ≠ [] := by
    intro gs
    induction gs with
    | nil => intro m hm; exact hm
    | cons f fs2 ih =>
      intro m hm
      simp only [List.foldl_cons]
      cases hkf : keyF f with
      | none =>
        have hstep : groupStep keyF m f = m := by simp [groupStep, hkf]
        rw [hstep]; exact ih m hm
      | some k2 =>
        have hstep : groupStep keyF m f = updAppend m k2 f := by simp [groupStep, hkf]
        rw [hstep]
        exact ih _ (values_ne_nil_updAppend m k2 f hm)
  exact haux fs [] (by simp)

@[simp] theorem joinVals_nil {κ ν : Type} : joinVals ([] : List (κ × List ν)) = [] := rfl

@[simp] theorem joinVals_cons {κ ν : Type} (k : κ) (vs : List ν) (m : List (κ × List ν)) :
    joinVals ((k, vs) :: m) = vs ++ joinVals m := by
  simp [joinVals]

theorem joinVals_updAppend_perm {κ ν : Type} [DecidableEq κ]
    (m : List (κ × List ν)) (k : κ) (v : ν) :
    (joinVals (updAppend m k v)).Perm (v :: joinVals m) := by
  induction m with
  | nil => simp [updAppend]
  | cons kv rest ih =>
    obtain ⟨k2, vs⟩ := kv
    by_cases hk : k2 = k
    · subst hk
      have hstep : updAppend ((k2, vs) :: rest) k2 v = (k2, vs ++ [v]) :: rest := by
        simp [updAppend]
      rw [hstep, joinVals_cons, joinVals_cons]
      rw [show (vs ++ [v]) ++ joinVals rest = vs ++ (v :: joinVals rest) by simp]
      exact List.perm_middle
    · have hstep : updAppend ((k2, vs) :: rest) k v = (k2, vs) :: updAppend rest k v := by
        simp [updAppend, hk]
      rw [hstep, joinVals_cons, joinVals_cons]
      exact (List.Perm.append_left vs ih).trans List.perm_middle

theorem joinVals_foldl_groupStep_perm {κ σ : Type} [DecidableEq κ] (keyF : σ → Option κ)
    (fs : List σ) (m : List (κ × List σ)) :
    (joinVals (fs.foldl (groupStep keyF) m)).Perm
      ((fs.filter (fun f => (keyF f).isSome)) ++ joinVals m) := by
  induction fs generalizing m with
  | nil => simp
  | cons f fs ih =>
    simp only [List.foldl_cons, List.filter_cons]
    cases hkf : keyF f with
    | none =>
      have hstep : groupStep keyF m f = m := by simp [groupStep, hkf]
      rw [hstep]
      simpa using ih m
    | some k2 =>
      have hstep : groupStep keyF m f = updAppend m k2 f := by simp [groupStep, hkf]
      rw [hstep]
      have h1 := ih (updAppend m k2 f)
      have h2 : (joinVals (updAppend m k2 f)).Perm (f :: joinVals m) :=
        joinVals_updAppend_perm m k2 f
      have h3 := List.Perm.append_left (fs.filter (fun f => (keyF f).isSome)) h2
      have h4 : ((fs.filter (fun f => (keyF f).isSome)) ++ (f :: joinVals m)).Perm
          (f :: ((fs.filter (fun f => (keyF f).isSome)) ++ joinVals m)) :=
        List.perm_middle
      have hfin := (h1.trans h3).trans h4
      simpa using hfin

theorem joinVals_groupFold_perm_of_total {κ σ : Type} [DecidableEq κ]
    (keyF : σ → Option κ) (fs : List σ) (htot : ∀ f, (keyF f).isSome) :
    (joinVals (groupFold keyF fs)).Perm fs := by
  have hperm := joinVals_foldl_groupStep_perm keyF fs []
  have hfil : fs.filter (fun f => (keyF f).isSome) = fs :=
    List.filter_eq_self.mpr (fun f _ => htot f)
  simpa [hfil] using hperm

/-! ## Characterisation of the heuristic fallback -/
theorem string_append_right_cancel (a b c : String) (h : a ++ c = b ++ c) : a = b := by
  have hd : a.data ++ c.data = b.data ++ c.data := by
    rw [← String.data_append, ← String.data_append, h]
  exact congrArg String.mk (List.append_cancel_right hd)

theorem related_ne_changes (a b : String) : a ++ "-related" ≠ b ++ "-changes" := by
  intro h
  have hd : a.data ++ "-related".data = b.data ++ "-changes".data := by
    rw [← String.data_append, ← String.data_append, h]
  have hlen : ("-related".data : List Char).length = ("-changes".data : List Char).length := by
    decide
  have := (List.append_inj' hd hlen).2
  exact absurd this (by decide)

/-- The two components of the entity loop of git.py lines 654-664,
computed separately: the groups dict is a `dictInsert` fold over the
shared buckets, and `grouped_files` collects exactly the files of the
shared buckets. -/
theorem entityLoop_parts (l : List (String × List String))
    (acc : List (String × GroupInfo) × List String) :
    (l.foldl entityLoopStep acc).1 =
      (l.filter (fun kv => 1 < kv.2.length)).foldl
        (fun g kv => dictInsert g (kv.1 ++ "-related") (entityGroupInfo kv.1 kv.2)) acc.1 ∧
    (l.foldl entityLoopStep acc).2 =
      acc.2 ++ joinVals (l.filter (fun kv => 1 < kv.2.length)) := by
  induction l generalizing acc with
  | nil => simp
  | cons kv l ih =>
    obtain ⟨k, vs⟩ := kv
    simp only [List.foldl_cons, List.filter_cons]
    by_cases hbig : 1 < vs.length
    · have hstep : entityLoopStep acc (k, vs) =
          (dictInsert acc.1 (k ++ "-related") (entityGroupInfo k vs), acc.2 ++ vs) := by
        simp [entityLoopStep, hbig]
      rw [hstep]
      have := ih (dictInsert acc.1 (k ++ "-related") (entityGroupInfo k vs), acc.2 ++ vs)
      rw [if_pos (by simpa using hbig)]
      simp only [List.foldl_cons]
      exact ⟨this.1, by rw [this.2, joinVals_cons]; simp⟩
    · have hstep : entityLoopStep acc (k, vs) = acc := by
        simp [entityLoopStep, hbig]
      rw [hstep, if_neg (by simpa using hbig)]
      exact ih acc

/-- A fold of `dictInsert` with names fresh for the dict and mutually
distinct is a plain append. -/
theorem foldl_dictInsert_eq_append {α ν : Type} (nameF : α → String) (valF : α → ν)
    (l : List α) (g : List (String × ν))
    (h : (keysOf g ++ l.map nameF).Nodup) :
    l.foldl (fun g a => dictInsert g (nameF a) (valF a)) g =
      g ++ l.map (fun a => (nameF a, valF a)) := by
  induction l generalizing g with
  | nil => simp
  | cons a l ih =>
    simp only [List.foldl_cons, List.map_cons]
    have hfresh : nameF a ∉ keysOf g := by
      intro hc
      rcases List.nodup_append.mp h with ⟨_, _, hdisj⟩
      exact hdisj hc (by simp)
    rw [dictInsert_eq_append g (nameF a) (valF a) hfresh]
    have hh : (keysOf (g ++ [(nameF a, valF a)]) ++ l.map nameF).Nodup := by
      have : keysOf (g ++ [(nameF a, valF a)]) ++ l.map nameF =
          keysOf g ++ (nameF a :: l.map nameF) := by
        simp [keysOf]
      rw [this]
      exact h
    rw [ih _ hh]
    simp

theorem nodup_keysOf_entityGroupsOf (files : List String) :
    (keysOf (entityGroupsOf files)).Nodup := by
  have h1 : keysOf (entityGroupsOf files) =
      (((entityPatternsOf files).filter (fun kv => 1 < kv.2.length)).map Prod.fst).map
        (fun k => k ++ "-related") := by
    simp only [entityGroupsOf, keysOf, List.map_map]
    rfl
  rw [h1]
  have h2 : (((entityPatternsOf files).filter (fun kv => 1 < kv.2.length)).map Prod.fst).Nodup := by
    have hsub : (((entityPatternsOf files).filter (fun kv => 1 < kv.2.length)).map Prod.fst).Sublist
        ((entityPatternsOf files).map Prod.fst) :=
      (List.filter_sublist (entityPatternsOf files)).map Prod.fst
    exact hsub.nodup (nodup_keysOf_groupFold entityKeyOf files)
  exact h2.map (fun x y hxy => string_append_right_cancel x y "-related" hxy)

theorem nodup_keysOf_dirGroupsOf (files : List String) :
    (keysOf (dirGroupsOf files)).Nodup := by
  have h1 : keysOf (dirGroupsOf files) =
      ((group_files_by_directory (ungroupedOf files)).map Prod.fst).map
        (fun k => k ++ "-changes") := by
    simp only [dirGroupsOf, keysOf, List.map_map]
    rfl
  rw [h1]
  exact (nodup_keysOf_groupFold _ _).map
    (fun x y hxy => string_append_right_cancel x y "-changes" hxy)

/-- Explicit closed form of the fallback result: the `-related` groups
in entity order, then the `-changes` groups in directory order, or the
degenerate `all-changes` group. -/
theorem fallback_eq_explicit (files : List String) :
    fallback_intelligent_grouping files =
      (if (ungroupedOf files).isEmpty then
        (if (entityGroupsOf files).isEmpty then [("all-changes", allChangesInfo files)]
         else entityGroupsOf files)
       else if (entityGroupsOf files ++ dirGroupsOf files).isEmpty then
         [("all-changes", allChangesInfo files)]
       else entityGroupsOf files ++ dirGroupsOf files) := by
  unfold fallback_intelligent_grouping
  have hparts := entityLoop_parts (entityPatternsOf files) ([], [])
  have hst1 : ((entityPatternsOf files).foldl entityLoopStep ([], [])).1 =
      entityGroupsOf files := by
    rw [hparts.1]
    have := foldl_dictInsert_eq_append
      (fun kv : String × List String => kv.1 ++ "-related")
      (fun kv => entityGroupInfo kv.1 kv.2)
      ((entityPatternsOf files).filter (fun kv => 1 < kv.2.length)) []
      (by
        simp only [keysOf_nil, List.nil_append]
        have h1 : (((entityPatternsOf files).filter (fun kv => 1 < kv.2.length)).map
            (fun kv : String × List String => kv.1 ++ "-related")) =
            ((((entityPatternsOf files).filter (fun kv => 1 < kv.2.length)).map Prod.fst).map
              (fun k => k ++ "-related")) := by
          rw [List.map_map]
          rfl
        rw [h1]
        have h2 : ((((entityPatternsOf files)).filter (fun kv => 1 < kv.2.length)).map
            Prod.fst).Nodup :=
          ((List.filter_sublist (entityPatternsOf files)).map Prod.fst).nodup
            (nodup_keysOf_groupFold entityKeyOf files)
        exact h2.map (fun x y hxy => string_append_right_cancel x y "-related" hxy))
    rw [this]
    simp [entityGroupsOf]
  have hst2 : ((entityPatternsOf files).foldl entityLoopStep ([], [])).2 =
      groupedFilesOf files := by
    rw [hparts.2]
    simp [groupedFilesOf]
  have hdirfold : (group_files_by_directory (ungroupedOf files)).foldl
        (fun g kv => dictInsert g (kv.1 ++ "-changes") (dirGroupInfo kv.1 kv.2))
        (entityGroupsOf files) = entityGroupsOf files ++ dirGroupsOf files := by
      have hnod : (keysOf (entityGroupsOf files) ++
          (group_files_by_directory (ungroupedOf files)).map
            (fun kv : String × List String => kv.1 ++ "-changes")).Nodup := by
        rw [List.nodup_append]
        refine ⟨nodup_keysOf_entityGroupsOf files, ?_, ?_⟩
        · have h1 : ((group_files_by_directory (ungroupedOf files)).map
              (fun kv : String × List String => kv.1 ++ "-changes")) =
              (((group_files_by_directory (ungroupedOf files)).map Prod.fst).map
                (fun k => k ++ "-changes")) := by
            rw [List.map_map]
            rfl
          rw [h1]
          exact (nodup_keysOf_groupFold _ _).map
            (fun x y hxy => string_append_right_cancel x y "-changes" hxy)
        · intro n hn1 hn2
          have hn1b : ∃ a, (∃ x, (a, x) ∈ entityPatternsOf files ∧ 1 < x.length) ∧
              a ++ "-related" = n := by
            simpa [entityGroupsOf, keysOf, List.map_map] using hn1
          obtain ⟨a, _, ha⟩ := hn1b
          rcases List.mem_map.mp hn2 with ⟨kv2, _, hkv2⟩
          exact related_ne_changes a kv2.1 (ha.trans hkv2.symm)
      have := foldl_dictInsert_eq_append
        (fun kv : String × List String => kv.1 ++ "-changes")
        (fun kv => dirGroupInfo kv.1 kv.2)
        (group_files_by_directory (ungroupedOf files)) (entityGroupsOf files) hnod
      rw [this]
      simp [dirGroupsOf]
  simp only [hst1, hst2]
  have hung : files.filter
      (fun f => !(decide (f ∈ groupedFilesOf files))) = ungroupedOf files := rfl
  rw [hung]
  by_cases hu : (ungroupedOf files).isEmpty
  · simp [hu]
  · simp only [hu, Bool.false_eq_true, if_false, hdirfold]

theorem mem_joinVals {κ ν : Type} (m : List (κ × List ν)) (v : ν) :
    v ∈ joinVals m ↔ ∃ kv ∈ m, v ∈ kv.2 := by
  simp only [joinVals, List.mem_flatten, List.mem_map]
  constructor
  · rintro ⟨l, ⟨kv, hkv, hl⟩, hv⟩
    exact ⟨kv, hkv, hl ▸ hv⟩
  · rintro ⟨kv, hkv, hv⟩
    exact ⟨kv.2, ⟨kv, hkv, rfl⟩, hv⟩

theorem mem_groupFold_pair {κ σ : Type} [DecidableEq κ] (keyF : σ → Option κ)
    (fs : List σ) (k : κ) (vs : List σ) :
    (k, vs) ∈ groupFold keyF fs ↔
      vs = fs.filter (fun f => keyF f = some k) ∧ vs ≠ [] := by
  constructor
  · intro hmem
    have halo := alookup_eq_some_of_mem_nodup _ _ _ (nodup_keysOf_groupFold keyF fs) hmem
    rw [alookup_groupFold] at halo
    cases hfil : fs.filter (fun f => keyF f = some k) with
    | nil =>
      rw [hfil] at halo
      simp [optExtend] at halo
    | cons a l =>
      rw [hfil] at halo
      simp only [optExtend, Option.some.injEq] at halo
      exact ⟨halo.symm, by rw [← halo]; simp⟩
  · rintro ⟨hvs, hne⟩
    apply mem_of_alookup_eq_some
    rw [alookup_groupFold, ← hvs]
    cases vs with
    | nil => exact absurd rfl hne
    | cons a l => simp [optExtend]

theorem mem_bucket_iff (files : List String) (k : String) (f : String) :
    f ∈ files.filter (fun g => entityKeyOf g = some k) ↔
      f ∈ files ∧ entityKeyOf f = some k := by
  rw [List.mem_filter]
  simp

theorem mem_groupedFilesOf (files : List String) (f : String) :
    f ∈ groupedFilesOf files ↔ f ∈ files ∧ isClaimedB files f = true := by
  unfold groupedFilesOf
  rw [mem_joinVals]
  constructor
  · rintro ⟨kv, hkv, hf⟩
    obtain ⟨k, vs⟩ := kv
    rw [List.mem_filter] at hkv
    obtain ⟨hpair, hbig⟩ := hkv
    rcases (mem_groupFold_pair entityKeyOf files k vs).mp hpair with ⟨hvs, _⟩
    subst hvs
    rcases (mem_bucket_iff files k f).mp hf with ⟨hfin, hkey⟩
    refine ⟨hfin, ?_⟩
    unfold isClaimedB
    rw [hkey]
    unfold entitySharedB
    simpa using hbig
  · rintro ⟨hfin, hcl⟩
    unfold isClaimedB at hcl
    cases hkey : entityKeyOf f with
    | none => rw [hkey] at hcl; cases hcl
    | some k =>
      rw [hkey] at hcl
      have hshared : 1 < (files.filter (fun g => entityKeyOf g = some k)).length := by
        simpa [entitySharedB] using hcl
      refine ⟨(k, files.filter (fun g => entityKeyOf g = some k)), ?_, ?_⟩
      · rw [List.mem_filter]
        constructor
        · apply (mem_groupFold_pair entityKeyOf files k _).mpr
          refine ⟨rfl, ?_⟩
          intro hnil
          rw [hnil] at hshared
          simp at hshared
        · simpa using hshared
      · exact (mem_bucket_iff files k f).mpr ⟨hfin, hkey⟩

theorem mem_ungroupedOf (files : List String) (f : String) :
    f ∈ ungroupedOf files ↔ f ∈ files ∧ isClaimedB files f = false := by
  unfold ungroupedOf
  rw [List.mem_filter]
  constructor
  · rintro ⟨hfin, hng⟩
    refine ⟨hfin, ?_⟩
    by_contra hcl
    have hcl2 : isClaimedB files f = true := by
      cases h : isClaimedB files f
      · exact absurd h hcl
      · rfl
    have : f ∈ groupedFilesOf files := (mem_groupedFilesOf files f).mpr ⟨hfin, hcl2⟩
    simp [this] at hng
  · rintro ⟨hfin, hcl⟩
    refine ⟨hfin, ?_⟩
    have : f ∉ groupedFilesOf files := by
      intro hmem
      rcases (mem_groupedFilesOf files f).mp hmem with ⟨_, hcl2⟩
      rw [hcl] at hcl2
      cases hcl2
    simp [this]

theorem mem_entityGroupsOf_pair (files : List String) (n : String) (gi : GroupInfo) :
    (n, gi) ∈ entityGroupsOf files ↔
      ∃ k, entitySharedB files k = true ∧ n = k ++ "-related" ∧
        gi = entityGroupInfo k (files.filter (fun f => entityKeyOf f = some k)) := by
  unfold entityGroupsOf
  rw [List.mem_map]
  constructor
  · rintro ⟨kv, hkv, heq⟩
    obtain ⟨k, vs⟩ := kv
    rw [List.mem_filter] at hkv
    obtain ⟨hpair, hbig⟩ := hkv
    rcases (mem_groupFold_pair entityKeyOf files k vs).mp hpair with ⟨hvs, _⟩
    subst hvs
    rw [Prod.mk.injEq] at heq
    refine ⟨k, by simpa [entitySharedB] using hbig, heq.1.symm, heq.2.symm⟩
  · rintro ⟨k, hshared, hn, hgi⟩
    refine ⟨(k, files.filter (fun f => entityKeyOf f = some k)), ?_, ?_⟩
    · rw [List.mem_filter]
      constructor
      · apply (mem_groupFold_pair entityKeyOf files k _).mpr
        refine ⟨rfl, ?_⟩
        intro hnil
        rw [entitySharedB, hnil] at hshared
        simp at hshared
      · simpa [entitySharedB] using hshared
    · rw [Prod.mk.injEq]
      exact ⟨hn.symm, hgi.symm⟩

theorem mem_dirGroupsOf_pair (files : List String) (n : String) (gi : GroupInfo) :
    (n, gi) ∈ dirGroupsOf files ↔
      ∃ d, n = d ++ "-changes" ∧
        gi = dirGroupInfo d ((ungroupedOf files).filter (fun f => rootDirOf f = d)) ∧
        (ungroupedOf files).filter (fun f => rootDirOf f = d) ≠ [] := by
  unfold dirGroupsOf
  rw [List.mem_map]
  constructor
  · rintro ⟨kv, hkv, heq⟩
    obtain ⟨d, vs⟩ := kv
    rcases (mem_groupFold_pair _ _ d vs).mp hkv with ⟨hvs, hne⟩
    have hvs2 : vs = (ungroupedOf files).filter (fun f => rootDirOf f = d) := by
      rw [hvs]
      apply List.filter_congr
      intro f _
      simp
    rw [Prod.mk.injEq] at heq
    exact ⟨d, heq.1.symm, by rw [← heq.2, hvs2], by rw [← hvs2]; exact hne⟩
  · rintro ⟨d, hn, hgi, hne⟩
    refine ⟨(d, (ungroupedOf files).filter (fun f => rootDirOf f = d)), ?_, ?_⟩
    · have hfil : (ungroupedOf files).filter
          (fun f => (some (rootDirOf f) : Option String) = some d) =
          (ungroupedOf files).filter (fun f => rootDirOf f = d) := by
        apply List.filter_congr
        intro f _
        simp
      apply (mem_groupFold_pair (fun f => some (rootDirOf f)) (ungroupedOf files) d _).mpr
      exact ⟨hfil.symm, hne⟩
    · rw [Prod.mk.injEq]
      exact ⟨hn.symm, hgi.symm⟩

theorem mem_groupFilesOf_iff (g : List (String × GroupInfo)) (n f : String)
    (hnd : (keysOf g).Nodup) :
    f ∈ groupFilesOf g n ↔ ∃ gi, (n, gi) ∈ g ∧ f ∈ gi.files := by
  unfold groupFilesOf
  cases halo : alookup g n with
  | none =>
    simp only [List.not_mem_nil, false_iff, not_exists, not_and]
    intro gi hgi
    have := alookup_eq_some_of_mem_nodup g n gi hnd hgi
    rw [halo] at this
    cases this
  | some gi =>
    constructor
    · intro hf
      exact ⟨gi, mem_of_alookup_eq_some g n gi halo, hf⟩
    · rintro ⟨gi2, hgi2, hf2⟩
      have := alookup_eq_some_of_mem_nodup g n gi2 hnd hgi2
      rw [halo] at this
      injection this with h2
      rw [← h2] at hf2
      exact hf2

theorem mem_keysOf_iff {κ ν : Type} (m : List (κ × ν)) (k : κ) :
    k ∈ keysOf m ↔ ∃ v, (k, v) ∈ m := by
  simp only [keysOf, List.mem_map]
  constructor
  · rintro ⟨kv, hkv, hk⟩
    exact ⟨kv.2, by rw [← hk] at *; exact hkv⟩
  · rintro ⟨v, hv⟩
    exact ⟨(k, v), hv, rfl⟩

theorem mem_keysOf_entityGroupsOf (files : List String) (n : String) :
    n ∈ keysOf (entityGroupsOf files) ↔
      ∃ k, entitySharedB files k = true ∧ n = k ++ "-related" := by
  rw [mem_keysOf_iff]
  constructor
  · rintro ⟨gi, hgi⟩
    rcases (mem_entityGroupsOf_pair files n gi).mp hgi with ⟨k, hsh, hn, _⟩
    exact ⟨k, hsh, hn⟩
  · rintro ⟨k, hsh, hn⟩
    exact ⟨entityGroupInfo k (files.filter (fun f => entityKeyOf f = some k)),
      (mem_entityGroupsOf_pair files n _).mpr ⟨k, hsh, hn, rfl⟩⟩

theorem filter_ne_nil_iff_exists {α : Type} (p : α → Bool) (l : List α) :
    l.filter p ≠ [] ↔ ∃ x ∈ l, p x = true := by
  rw [Ne, List.filter_eq_nil_iff]
  push_neg
  simp

theorem mem_keysOf_dirGroupsOf (files : List String) (n : String) :
    n ∈ keysOf (dirGroupsOf files) ↔
      ∃ f, f ∈ files ∧ isClaimedB files f = false ∧ n = rootDirOf f ++ "-changes" := by
  rw [mem_keysOf_iff]
  constructor
  · rintro ⟨gi, hgi⟩
    rcases (mem_dirGroupsOf_pair files n gi).mp hgi with ⟨d, hn, _, hne⟩
    rcases (filter_ne_nil_iff_exists _ _).mp hne with ⟨f, hfu, hfd⟩
    rcases (mem_ungroupedOf files f).mp hfu with ⟨hfin, hcl⟩
    have hfd2 : rootDirOf f = d := by simpa using hfd
    exact ⟨f, hfin, hcl, by rw [hn, hfd2]⟩
  · rintro ⟨f, hfin, hcl, hn⟩
    have hfu : f ∈ ungroupedOf files := (mem_ungroupedOf files f).mpr ⟨hfin, hcl⟩
    refine ⟨dirGroupInfo (rootDirOf f)
      ((ungroupedOf files).filter (fun g => rootDirOf g = rootDirOf f)), ?_⟩
    apply (mem_dirGroupsOf_pair files n _).mpr
    refine ⟨rootDirOf f, hn, rfl, ?_⟩
    apply (filter_ne_nil_iff_exists _ _).mpr
    exact ⟨f, hfu, by simp⟩

theorem entityGroupsOf_nil : entityGroupsOf [] = [] := rfl

theorem ungroupedOf_nil : ungroupedOf [] = [] := rfl

theorem files_eq_nil_of_empty (files : List String)
    (hU : ungroupedOf files = []) (hE : entityGroupsOf files = []) : files = [] := by
  by_contra hne
  rcases List.exists_mem_of_ne_nil files hne with ⟨f, hf⟩
  cases hcl : isClaimedB files f with
  | false =>
    have : f ∈ ungroupedOf files := (mem_ungroupedOf files f).mpr ⟨hf, hcl⟩
    rw [hU] at this
    cases this
  | true =>
    have hg : f ∈ groupedFilesOf files := (mem_groupedFilesOf files f).mpr ⟨hf, hcl⟩
    have hfe : ((entityPatternsOf files).filter (fun kv => 1 < kv.2.length)) = [] := by
      unfold entityGroupsOf at hE
      exact List.map_eq_nil_iff.mp hE
    rw [groupedFilesOf, hfe] at hg
    cases hg

theorem dirGroupsOf_ne_nil (files : List String) (h : ungroupedOf files ≠ []) :
    dirGroupsOf files ≠ [] := by
  rcases List.exists_mem_of_ne_nil _ h with ⟨f, hf⟩
  intro hD
  have : rootDirOf f ++ "-changes" ∈ keysOf (dirGroupsOf files) := by
    rcases (mem_ungroupedOf files f).mp hf with ⟨hfin, hcl⟩
    exact (mem_keysOf_dirGroupsOf files _).mpr ⟨f, hfin, hcl, rfl⟩
  rw [hD] at this
  cases this

theorem nodup_keysOf_entity_dir (files : List String) :
    (keysOf (entityGroupsOf files ++ dirGroupsOf files)).Nodup := by
  rw [keysOf_append, List.nodup_append]
  refine ⟨nodup_keysOf_entityGroupsOf files, nodup_keysOf_dirGroupsOf files, ?_⟩
  intro n hn1 hn2
  rcases (mem_keysOf_entityGroupsOf files n).mp hn1 with ⟨k, _, hk⟩
  rcases (mem_keysOf_dirGroupsOf files n).mp hn2 with ⟨f, _, _, hf⟩
  exact related_ne_changes k (rootDirOf f) (hk ▸ hf ▸ rfl)

theorem nodup_keysOf_fallback (files : List String) :
    (keysOf (fallback_intelligent_grouping files)).Nodup := by
  rw [fallback_eq_explicit]
  by_cases hU : (ungroupedOf files).isEmpty
  · rw [if_pos hU]
    by_cases hE : (entityGroupsOf files).isEmpty
    · rw [if_pos hE]
      simp
    · rw [if_neg hE]
      exact nodup_keysOf_entityGroupsOf files
  · rw [if_neg hU]
    by_cases hG : (entityGroupsOf files ++ dirGroupsOf files).isEmpty
    · rw [if_pos hG]
      simp
    · rw [if_neg hG]
      exact nodup_keysOf_entity_dir files

theorem mem_groupFilesOf_entity (files : List String) (n f : String) :
    f ∈ groupFilesOf (entityGroupsOf files) n ↔
      f ∈ files ∧ ∃ k, entityKeyOf f = some k ∧ entitySharedB files k = true ∧
        n = k ++ "-related" := by
  rw [mem_groupFilesOf_iff _ _ _ (nodup_keysOf_entityGroupsOf files)]
  constructor
  · rintro ⟨gi, hgi, hf⟩
    rcases (mem_entityGroupsOf_pair files n gi).mp hgi with ⟨k, hsh, hn, hval⟩
    rw [hval] at hf
    rcases (mem_bucket_iff files k f).mp hf with ⟨hfin, hkey⟩
    exact ⟨hfin, k, hkey, hsh, hn⟩
  · rintro ⟨hfin, k, hkey, hsh, hn⟩
    refine ⟨entityGroupInfo k (files.filter (fun g => entityKeyOf g = some k)),
      (mem_entityGroupsOf_pair files n _).mpr ⟨k, hsh, hn, rfl⟩, ?_⟩
    exact (mem_bucket_iff files k f).mpr ⟨hfin, hkey⟩

theorem mem_groupFilesOf_dir (files : List String) (n f : String) :
    f ∈ groupFilesOf (dirGroupsOf files) n ↔
      f ∈ files ∧ isClaimedB files f = false ∧ n = rootDirOf f ++ "-changes" := by
  rw [mem_groupFilesOf_iff _ _ _ (nodup_keysOf_dirGroupsOf files)]
  constructor
  · rintro ⟨gi, hgi, hf⟩
    rcases (mem_dirGroupsOf_pair files n gi).mp hgi with ⟨d, hn, hval, _⟩
    rw [hval] at hf
    have hf2 : f ∈ (ungroupedOf files).filter (fun g => rootDirOf g = d) := by
      simpa [dirGroupInfo] using hf
    rw [List.mem_filter] at hf2
    obtain ⟨hfu, hfd⟩ := hf2
    rcases (mem_ungroupedOf files f).mp hfu with ⟨hfin, hcl⟩
    have hfd2 : rootDirOf f = d := by simpa using hfd
    exact ⟨hfin, hcl, by rw [hn, hfd2]⟩
  · rintro ⟨hfin, hcl, hn⟩
    have hfu : f ∈ ungroupedOf files := (mem_ungroupedOf files f).mpr ⟨hfin, hcl⟩
    refine ⟨dirGroupInfo (rootDirOf f)
      ((ungroupedOf files).filter (fun g => rootDirOf g = rootDirOf f)), ?_, ?_⟩
    · apply (mem_dirGroupsOf_pair files n _).mpr
      refine ⟨rootDirOf f, hn, rfl, ?_⟩
      apply (filter_ne_nil_iff_exists _ _).mpr
      exact ⟨f, hfu, by simp⟩
    · simp only [dirGroupInfo]
      rw [List.mem_filter]
      exact ⟨hfu, by simp⟩

theorem mem_groupFilesOf_append (g1 g2 : List (String × GroupInfo)) (n f : String)
    (hnd : (keysOf (g1 ++ g2)).Nodup) :
    f ∈ groupFilesOf (g1 ++ g2) n ↔
      f ∈ groupFilesOf g1 n ∨ f ∈ groupFilesOf g2 n := by
  have hnd1 : (keysOf g1).Nodup := by
    rw [keysOf_append, List.nodup_append] at hnd
    exact hnd.1
  have hnd2 : (keysOf g2).Nodup := by
    rw [keysOf_append, List.nodup_append] at hnd
    exact hnd.2.1
  rw [mem_groupFilesOf_iff _ _ _ hnd, mem_groupFilesOf_iff _ _ _ hnd1,
    mem_groupFilesOf_iff _ _ _ hnd2]
  constructor
  · rintro ⟨gi, hgi, hf⟩
    rcases List.mem_append.mp hgi with hgi | hgi
    · exact Or.inl ⟨gi, hgi, hf⟩
    · exact Or.inr ⟨gi, hgi, hf⟩
  · rintro (⟨gi, hgi, hf⟩ | ⟨gi, hgi, hf⟩)
    · exact ⟨gi, List.mem_append.mpr (Or.inl hgi), hf⟩
    · exact ⟨gi, List.mem_append.mpr (Or.inr hgi), hf⟩

/-- Full characterisation of the names of the fallback grouping. -/
theorem mem_keysOf_fallback (files : List String) (n : String) :
    n ∈ keysOf (fallback_intelligent_grouping files) ↔
      (∃ k, entitySharedB files k = true ∧ n = k ++ "-related") ∨
      (∃ f, f ∈ files ∧ isClaimedB files f = false ∧ n = rootDirOf f ++ "-changes") ∨
      (files = [] ∧ n = "all-changes") := by
  rw [fallback_eq_explicit]
  by_cases hU : (ungroupedOf files).isEmpty
  · rw [if_pos hU]
    by_cases hE : (entityGroupsOf files).isEmpty
    · rw [if_pos hE]
      have hnil : files = [] :=
        files_eq_nil_of_empty files (List.isEmpty_iff.mp hU) (List.isEmpty_iff.mp hE)
      subst hnil
      constructor
      · intro hn
        have hn2 : n = "all-changes" := by simpa [keysOf] using hn
        exact Or.inr (Or.inr ⟨rfl, hn2⟩)
      · rintro (⟨k, hsh, _⟩ | ⟨f, hf, _⟩ | ⟨_, hn⟩)
        · exact absurd hsh (by simp [entitySharedB])
        · cases hf
        · simp [keysOf, hn]
    · rw [if_neg hE, mem_keysOf_entityGroupsOf]
      constructor
      · exact Or.inl
      · rintro (h | ⟨f, hfin, hcl, _⟩ | ⟨hnil, _⟩)
        · exact h
        · exfalso
          have : f ∈ ungroupedOf files := (mem_ungroupedOf files f).mpr ⟨hfin, hcl⟩
          rw [List.isEmpty_iff.mp hU] at this
          cases this
        · exfalso
          subst hnil
          exact hE rfl
  · rw [if_neg hU]
    have hUne : ungroupedOf files ≠ [] := fun hc => hU (by rw [hc]; rfl)
    have hG : ¬(entityGroupsOf files ++ dirGroupsOf files).isEmpty = true := by
      intro hc
      rcases List.append_eq_nil.mp (List.isEmpty_iff.mp hc) with ⟨_, hD⟩
      exact dirGroupsOf_ne_nil files hUne hD
    rw [if_neg hG, keysOf_append, List.mem_append, mem_keysOf_entityGroupsOf,
      mem_keysOf_dirGroupsOf]
    constructor
    · rintro (h | h)
      · exact Or.inl h
      · exact Or.inr (Or.inl h)
    · rintro (h | h | ⟨hnil, _⟩)
      · exact Or.inl h
      · exact Or.inr h
      · exfalso
        subst hnil
        exact hUne rfl

/-- Full characterisation of the file memberships of the fallback
grouping. -/
theorem mem_groupFilesOf_fallback (files : List String) (n f : String) :
    f ∈ groupFilesOf (fallback_intelligent_grouping files) n ↔
      f ∈ files ∧
        ((∃ k, entityKeyOf f = some k ∧ entitySharedB files k = true ∧
            n = k ++ "-related") ∨
         (isClaimedB files f = false ∧ n = rootDirOf f ++ "-changes")) := by
  rw [fallback_eq_explicit]
  by_cases hU : (ungroupedOf files).isEmpty
  · rw [if_pos hU]
    by_cases hE : (entityGroupsOf files).isEmpty
    · rw [if_pos hE]
      have hnil : files = [] :=
        files_eq_nil_of_empty files (List.isEmpty_iff.mp hU) (List.isEmpty_iff.mp hE)
      subst hnil
      unfold groupFilesOf
      by_cases hn : ("all-changes" : String) = n
      · simp [alookup, hn, allChangesInfo]
      · simp [alookup, hn]
    · rw [if_neg hE, mem_groupFilesOf_entity]
      constructor
      · rintro ⟨hfin, hrest⟩
        exact ⟨hfin, Or.inl hrest⟩
      · rintro ⟨hfin, hrest | ⟨hcl, _⟩⟩
        · exact ⟨hfin, hrest⟩
        · exfalso
          have : f ∈ ungroupedOf files := (mem_ungroupedOf files f).mpr ⟨hfin, hcl⟩
          rw [List.isEmpty_iff.mp hU] at this
          cases this
  · rw [if_neg hU]
    have hUne : ungroupedOf files ≠ [] := fun hc => hU (by rw [hc]; rfl)
    have hG : ¬(entityGroupsOf files ++ dirGroupsOf files).isEmpty = true := by
      intro hc
      rcases List.append_eq_nil.mp (List.isEmpty_iff.mp hc) with ⟨_, hD⟩
      exact dirGroupsOf_ne_nil files hUne hD
    rw [if_neg hG,
      mem_groupFilesOf_append _ _ _ _ (nodup_keysOf_entity_dir files),
      mem_groupFilesOf_entity, mem_groupFilesOf_dir]
    constructor
    · rintro (⟨hfin, hrest⟩ | ⟨hfin, hcl, hn⟩)
      · exact ⟨hfin, Or.inl hrest⟩
      · exact ⟨hfin, Or.inr ⟨hcl, hn⟩⟩
    · rintro ⟨hfin, hrest | ⟨hcl, hn⟩⟩
      · exact Or.inl ⟨hfin, hrest⟩
      · exact Or.inr ⟨hfin, hcl, hn⟩

/-- Counterexample to claim C4 as stated.  On the input
`["UserModel.py", "user.py"]` the two files carry distinct entity keys
under the derivation the claim describes (`usermodel` and `user`, shown
by the `Nodup` conjunct), so by the claim no `-related` group may
appear and both files would fall into `root-changes`; the code strips
the capitalised suffix `Model` as well, gives both files the key
`user`, and returns exactly the group `user-related`. -/
theorem claim_C4_counterexample :
    (["UserModel.py", "user.py"].filterMap claimedEntityKeyOf).Nodup ∧
    keysOf (fallback_intelligent_grouping ["UserModel.py", "user.py"]) =
      ["user-related"] := by
  constructor
  · decide
  · decide

/-- Claim C4, amended to include the capitalised suffix strip of git.py
line 645 (reflected in `entityKeyOf`).  For every input file list: the
result of `_fallback_intelligent_grouping` has a group named
`<entity>-related` exactly for the entity keys shared by more than one
file, a group named `<segment>-changes` exactly for the first path
segments of the files not claimed by a shared entity, and the single
group `all-changes` exactly when the input is empty; a file belongs to
the group of its shared entity key when it has one, and otherwise to
the `<segment>-changes` group of its first path segment. -/
theorem claim_C4 (files : List String) (n f : String) :
    (n ∈ keysOf (fallback_intelligent_grouping files) ↔
      (∃ k, entitySharedB files k = true ∧ n = k ++ "-related") ∨
      (∃ g, g ∈ files ∧ isClaimedB files g = false ∧ n = rootDirOf g ++ "-changes") ∨
      (files = [] ∧ n = "all-changes")) ∧
    (f ∈ groupFilesOf (fallback_intelligent_grouping files) n ↔
      f ∈ files ∧
        ((∃ k, entityKeyOf f = some k ∧ entitySharedB files k = true ∧
            n = k ++ "-related") ∨
         (isClaimedB files f = false ∧ n = rootDirOf f ++ "-changes"))) :=
  ⟨mem_keysOf_fallback files n, mem_groupFilesOf_fallback files n f⟩

/-- Claim C5.  The fallback grouping is deterministic (definitionally:
it is a pure function) and permutation-invariant: two permuted input
lists produce the same set of group names with the same file
memberships. -/
theorem claim_C5 (F F2 : List String) (h : F.Perm F2) :
    fallback_intelligent_grouping F = fallback_intelligent_grouping F ∧
    (∀ n, n ∈ keysOf (fallback_intelligent_grouping F) ↔
      n ∈ keysOf (fallback_intelligent_grouping F2)) ∧
    (∀ n f, f ∈ groupFilesOf (fallback_intelligent_grouping F) n ↔
      f ∈ groupFilesOf (fallback_intelligent_grouping F2) n) := by
  have hshared : ∀ k, entitySharedB F k = entitySharedB F2 k := by
    intro k
    unfold entitySharedB
    rw [(h.filter (fun f => entityKeyOf f = some k)).length_eq]
  have hclaim : ∀ f, isClaimedB F f = isClaimedB F2 f := by
    intro f
    unfold isClaimedB
    cases entityKeyOf f with
    | none => rfl
    | some k => exact hshared k
  have hmem : ∀ f, f ∈ F ↔ f ∈ F2 := fun f => h.mem_iff
  have hnil : F = [] ↔ F2 = [] := by
    rw [← List.length_eq_zero, ← List.length_eq_zero, h.length_eq]
  refine ⟨rfl, ?_, ?_⟩
  · intro n
    rw [mem_keysOf_fallback, mem_keysOf_fallback]
    constructor
    · rintro (⟨k, hsh, hn⟩ | ⟨g, hg, hcl, hn⟩ | ⟨hf, hn⟩)
      · exact Or.inl ⟨k, (hshared k) ▸ hsh, hn⟩
      · exact Or.inr (Or.inl ⟨g, (hmem g).mp hg, (hclaim g) ▸ hcl, hn⟩)
      · exact Or.inr (Or.inr ⟨hnil.mp hf, hn⟩)
    · rintro (⟨k, hsh, hn⟩ | ⟨g, hg, hcl, hn⟩ | ⟨hf, hn⟩)
      · exact Or.inl ⟨k, (hshared k).symm ▸ hsh, hn⟩
      · exact Or.inr (Or.inl ⟨g, (hmem g).mpr hg, (hclaim g).symm ▸ hcl, hn⟩)
      · exact Or.inr (Or.inr ⟨hnil.mpr hf, hn⟩)
  · intro n f
    rw [mem_groupFilesOf_fallback, mem_groupFilesOf_fallback]
    constructor
    · rintro ⟨hf, ⟨k, hk, hsh, hn⟩ | ⟨hcl, hn⟩⟩
      · exact ⟨(hmem f).mp hf, Or.inl ⟨k, hk, (hshared k) ▸ hsh, hn⟩⟩
      · exact ⟨(hmem f).mp hf, Or.inr ⟨(hclaim f) ▸ hcl, hn⟩⟩
    · rintro ⟨hf, ⟨k, hk, hsh, hn⟩ | ⟨hcl, hn⟩⟩
      · exact ⟨(hmem f).mpr hf, Or.inl ⟨k, hk, (hshared k).symm ▸ hsh, hn⟩⟩
      · exact ⟨(hmem f).mpr hf, Or.inr ⟨(hclaim f).symm ▸ hcl, hn⟩⟩

/-- Witness for claim C5 at a concrete permutation and group name. -/
theorem claim_C5_witness :
    ("a-changes" ∈ keysOf (fallback_intelligent_grouping ["a/x.py", "b/y.py"]) ↔
      "a-changes" ∈ keysOf (fallback_intelligent_grouping ["b/y.py", "a/x.py"])) :=
  (claim_C5 ["a/x.py", "b/y.py"] ["b/y.py", "a/x.py"] (by decide)).2.1 "a-changes"

/-- Claim C9.  `group_files_by_directory` returns a partition of its
input: the concatenation of all groups is a permutation of the input,
group keys are unique, a file lies exactly in the group keyed by its
first path segment (`root` for paths without a separator), and no group
is empty. -/
theorem claim_C9 (files : List String) :
    (joinVals (group_files_by_directory files)).Perm files ∧
    (keysOf (group_files_by_directory files)).Nodup ∧
    (∀ f k, (∃ vs, alookup (group_files_by_directory files) k = some vs ∧ f ∈ vs) ↔
      (f ∈ files ∧ k = rootDirOf f)) ∧
    (∀ k, alookup (group_files_by_directory files) k ≠ some []) := by
  refine ⟨?_, nodup_keysOf_groupFold _ _, ?_, ?_⟩
  · exact joinVals_groupFold_perm_of_total _ files (fun f => rfl)
  · intro f k
    constructor
    · rintro ⟨vs, halo, hf⟩
      rw [group_files_by_directory, alookup_groupFold] at halo
      cases hfil : files.filter (fun g => (some (rootDirOf g) : Option String) = some k) with
      | nil =>
        rw [hfil] at halo
        simp [optExtend] at halo
      | cons a l =>
        rw [hfil] at halo
        simp only [optExtend, Option.some.injEq] at halo
        rw [← halo, ← hfil] at hf
        rw [List.mem_filter] at hf
        refine ⟨hf.1, ?_⟩
        have := hf.2
        simp at this
        exact this.symm
    · rintro ⟨hfin, hk⟩
      subst hk
      rw [group_files_by_directory, alookup_groupFold]
      have hmemf : f ∈ files.filter
          (fun g => (some (rootDirOf g) : Option String) = some (rootDirOf f)) := by
        rw [List.mem_filter]
        exact ⟨hfin, by simp⟩
      have hne : files.filter
          (fun g => (some (rootDirOf g) : Option String) = some (rootDirOf f)) ≠ [] := by
        intro hc
        rw [hc] at hmemf
        cases hmemf
      cases hfil : files.filter
          (fun g => (some (rootDirOf g) : Option String) = some (rootDirOf f)) with
      | nil => exact absurd hfil hne
      | cons a l =>
        refine ⟨a :: l, by simp [optExtend], ?_⟩
        rw [← hfil]
        exact hmemf
  · intro k
    rw [group_files_by_directory, alookup_groupFold]
    cases hfil : files.filter (fun g => (some (rootDirOf g) : Option String) = some k) with
    | nil => simp [optExtend]
    | cons a l => simp [optExtend]

/-! ## Uniqueness of result keys -/
theorem keysNodup_processGroup (all_files : List String) (st st2 : PRGState) (gd : JVal)
    (h : processGroup all_files st gd = .ok st2) (hnd : (keysOf st.result).Nodup) :
    (keysOf st2.result).Nodup := by
  cases gd with
  | obj kvs =>
    unfold processGroup at h
    dsimp only at h
    cases hvf : validFilesOf all_files (extractFields kvs).filesV with
    | error e => rw [hvf] at h; cases h
    | ok valid_files =>
      rw [hvf] at h
      dsimp only at h
      by_cases hemp : valid_files.isEmpty
      · rw [if_pos hemp] at h
        injection h with h2
        rw [← h2]
        exact hnd
      · rw [if_neg hemp] at h
        cases hrn : resolveGroupName st.result (extractFields kvs).group with
        | error e => rw [hrn] at h; cases h
        | ok finalName =>
          rw [hrn] at h
          dsimp only at h
          cases hte : typeEmojiGet (extractFields kvs).ctype with
          | error e => rw [hte] at h; cases h
          | ok emoji =>
            rw [hte] at h
            dsimp only at h
            injection h with h2
            rw [← h2]
            exact nodup_keysOf_dictInsert _ _ _ hnd
  | null => exact absurd h (by simp [processGroup])
  | bool b => exact absurd h (by simp [processGroup])
  | num n => exact absurd h (by simp [processGroup])
  | str s => exact absurd h (by simp [processGroup])
  | arr xs => exact absurd h (by simp [processGroup])

theorem keysNodup_foldlM (all_files : List String) (l : List JVal) :
    ∀ (st : PRGState), (keysOf st.result).Nodup →
      ∀ st2, l.foldlM (processGroup all_files) st = .ok st2 →
        (keysOf st2.result).Nodup := by
  induction l with
  | nil =>
    intro st h st2 hfold
    injection hfold with h2
    rw [← h2]
    exact h
  | cons gd l ih =>
    intro st h st2 hfold
    rw [List.foldlM_cons] at hfold
    cases hpg : processGroup all_files st gd with
    | error e =>
      rw [hpg] at hfold
      exact Except.noConfusion hfold
    | ok st1 =>
      rw [hpg] at hfold
      exact ih st1 (keysNodup_processGroup all_files st st1 gd hpg h) st2 hfold

theorem keysNodup_parseGroupsCore (v : JVal) (all_files : List String)
    (r : List (JVal × GroupInfo)) (h : parseGroupsCore v all_files = .ok r) :
    (keysOf r).Nodup := by
  unfold parseGroupsCore at h
  cases hit : pyIterList v with
  | error e =>
    rw [hit] at h
    exact Except.noConfusion h
  | ok elems =>
    rw [hit] at h
    dsimp only at h
    cases hfold : elems.foldlM (processGroup all_files) ⟨[], []⟩ with
    | error e =>
      rw [hfold] at h
      exact Except.noConfusion h
    | ok st =>
      rw [hfold] at h
      dsimp only at h
      have hnd := keysNodup_foldlM all_files elems ⟨[], []⟩ (by simp) st hfold
      by_cases hemp : (all_files.filter (fun f => !(decide (f ∈ st.grouped)))).isEmpty
      · rw [if_pos hemp] at h
        injection h with h2
        rw [← h2]
        exact hnd
      · rw [if_neg hemp] at h
        injection h with h2
        rw [← h2]
        exact nodup_keysOf_dictInsert _ _ _ hnd

theorem keysNodup_fallbackAsResult (all_files : List String) :
    (keysOf (fallbackAsResult all_files)).Nodup := by
  have h1 : keysOf (fallbackAsResult all_files) =
      (keysOf (fallback_intelligent_grouping all_files)).map JVal.str := by
    simp only [fallbackAsResult, keysOf, List.map_map]
    rfl
  rw [h1]
  exact (nodup_keysOf_fallback all_files).map (fun a b hab => JVal.str.inj hab)

/-- Claim C7.  The names of the groups accepted by
`parse_relation_groups` are always unique in the result, and duplicate
parsed names are resolved by the numeric suffix counter: two accepted
groups named `x` come out as `x` and `x-1`, three as `x`, `x-1`,
`x-2`. -/
theorem claim_C7 :
    (∀ decoded all_files, keysNodupOutcome (parse_relation_groups decoded all_files)) ∧
    (parse_relation_groups (some (.arr [
        .obj [("group", .str "x"), ("files", .arr [.str "a.py"])],
        .obj [("group", .str "x"), ("files", .arr [.str "b.py"])]]))
      ["a.py", "b.py"]).map keysOf = .ok [JVal.str "x", JVal.str "x-1"] ∧
    (parse_relation_groups (some (.arr [
        .obj [("group", .str "x"), ("files", .arr [.str "a.py"])],
        .obj [("group", .str "x"), ("files", .arr [.str "b.py"])],
        .obj [("group", .str "x"), ("files", .arr [.str "c.py"])]]))
      ["a.py", "b.py", "c.py"]).map keysOf =
      .ok [JVal.str "x", JVal.str "x-1", JVal.str "x-2"] := by
  refine ⟨?_, rfl, rfl⟩
  intro decoded all_files
  cases decoded with
  | none =>
    show keysNodupOutcome (.ok (fallbackAsResult all_files))
    exact keysNodup_fallbackAsResult all_files
  | some v =>
    cases hcore : parseGroupsCore v all_files with
    | ok r =>
      have hpr : parse_relation_groups (some v) all_files = .ok r := by
        unfold parse_relation_groups
        dsimp only
        rw [hcore]
      rw [hpr]
      exact keysNodup_parseGroupsCore v all_files r hcore
    | error e =>
      cases e with
      | typeError =>
        have hpr : parse_relation_groups (some v) all_files =
            .ok (fallbackAsResult all_files) := by
          unfold parse_relation_groups
          dsimp only
          rw [hcore]
        rw [hpr]
        exact keysNodup_fallbackAsResult all_files
      | attributeError =>
        have hpr : parse_relation_groups (some v) all_files =
            .error .attributeError := by
          unfold parse_relation_groups
          dsimp only
          rw [hcore]
        rw [hpr]
        trivial

/-- Claim C1 (code bug).  The partition invariant fails for
`parse_relation_groups` in two ways.  First conjunct: when the decoded
response lists the same file in two accepted groups — response
`[{group: g1, files: [a.py]}, {group: g2, files: [a.py]}]` over the
input files `[a.py, b.py]` — the groups `g1` and `g2` both hold
exactly `[a.py]`, so one file sits in two groups.  Second conjunct:
when an accepted group is itself named `miscellaneous-changes` —
response `[{group: miscellaneous-changes, files: [a.py]}]` over
`[a.py, b.py]` — the later synthetic assignment for leftover files
overwrites it, the result is the single group
`miscellaneous-changes = [b.py]`, and `a.py` is dropped entirely, so
the union of the groups misses an input file. -/
theorem claim_C1 :
    (parse_relation_groups (some (.arr [
        .obj [("group", .str "g1"), ("files", .arr [.str "a.py"])],
        .obj [("group", .str "g2"), ("files", .arr [.str "a.py"])]]))
      ["a.py", "b.py"]).map
        (fun r => (groupFilesOfJ r (.str "g1"), groupFilesOfJ r (.str "g2"))) =
      .ok (["a.py"], ["a.py"]) ∧
    (parse_relation_groups (some (.arr [
        .obj [("group", .str "miscellaneous-changes"), ("files", .arr [.str "a.py"])]]))
      ["a.py", "b.py"]).map
        (fun r => (keysOf r, groupFilesOfJ r (.str "miscellaneous-changes"))) =
      .ok ([JVal.str "miscellaneous-changes"], ["b.py"]) :=
  ⟨rfl, rfl⟩

/-- Claim C2 (code bug).  A decoded response that is valid JSON with a
type mismatch — the array element `"a"` is a string where a group
object is expected — raises `AttributeError` (`.get` on a string)
through `parse_relation_groups` to its caller instead of being caught
and answered with the heuristic fallback. -/
theorem claim_C2 :
    parse_relation_groups (some (.arr [.str "a"])) ["x.py"] =
      .error .attributeError := rfl

/-- Claim C10.  Field extraction from an accepted group object
tolerates missing optional keys: a missing `group` key defaults the
name to `unknown`, a missing `type` to `chore`, a missing
`description` to the empty string, and when `commit_messages` is
absent or the empty array, a truthy legacy scalar `commit_message`
value is taken as a one-element candidate list. -/
theorem claim_C10 (kvs : List (String × JVal)) :
    (alookup kvs "group" = none → (extractFields kvs).group = .str "unknown") ∧
    (alookup kvs "type" = none → (extractFields kvs).ctype = .str "chore") ∧
    (alookup kvs "description" = none → (extractFields kvs).description = .str "") ∧
    (∀ m, (alookup kvs "commit_messages" = none ∨
           alookup kvs "commit_messages" = some (.arr [])) →
      alookup kvs "commit_message" = some m → truthy m = true →
      (extractFields kvs).commit_messages = .arr [m]) := by
  refine ⟨?_, ?_, ?_, ?_⟩
  · intro h
    simp [extractFields, h]
  · intro h
    simp [extractFields, h]
  · intro h
    simp [extractFields, h]
  · intro m hcm hsm htr
    have hfalse : truthy (JVal.arr []) = false := rfl
    rcases hcm with hcm | hcm
    · simp [extractFields, hcm, hsm, hfalse, htr]
    · simp [extractFields, hcm, hsm, hfalse, htr]

/-- Witness for claim C10 at a concrete group object. -/
theorem claim_C10_witness :
    (extractFields [("commit_message", JVal.str "feat: x")]).group = .str "unknown" ∧
    (extractFields [("commit_message", JVal.str "feat: x")]).commit_messages =
      .arr [.str "feat: x"] :=
  ⟨(claim_C10 [("commit_message", JVal.str "feat: x")]).1 rfl,
   (claim_C10 [("commit_message", JVal.str "feat: x")]).2.2.2 (JVal.str "feat: x")
     (Or.inl rfl) rfl rfl⟩

theorem prompt_diff_parts_foldl (diffs : List (String × String)) (acc : List String) :
    diffs.foldl (fun prompt_parts kv => prompt_parts ++ diffBlock kv) acc =
      acc ++ ((diffs.map diffBlock).flatten) := by
  induction diffs generalizing acc with
  | nil => simp
  | cons kv l ih =>
    simp only [List.foldl_cons, List.map_cons, List.flatten_cons]
    rw [ih]
    simp

/-- Claim C8, amended: each diff entry is truncated to its first 3000
characters before inclusion, and when truncation happens the
16-character marker `\n... [truncated]` is appended, so an embedded
entry has at most 3016 characters (not 3000); entries of at most 3000
characters are embedded verbatim. -/
theorem claim_C8 (diffs : List (String × String)) (path diff : String)
    (h : (path, diff) ∈ diffs) :
    truncated_diff diff ∈ prompt_diff_parts diffs ∧
    (truncated_diff diff).length ≤ 3016 ∧
    (diff.length ≤ 3000 → truncated_diff diff = diff) ∧
    (3000 < diff.length →
      truncated_diff diff = String.mk (diff.data.take 3000) ++ "\n... [truncated]") := by
  refine ⟨?_, ?_, ?_, ?_⟩
  · rw [prompt_diff_parts, prompt_diff_parts_foldl, List.nil_append, List.mem_flatten]
    refine ⟨diffBlock (path, diff), List.mem_map.mpr ⟨(path, diff), h, rfl⟩, ?_⟩
    simp [diffBlock]
  · by_cases hlen : 3000 < diff.length
    · rw [truncated_diff, if_pos hlen, String.length_append]
      have h1 : (String.mk (diff.data.take 3000)).length = 3000 := by
        show (diff.data.take 3000).length = 3000
        rw [List.length_take]
        have hd : diff.data.length = diff.length := rfl
        omega
      have h2 : ("\n... [truncated]" : String).length = 16 := rfl
      rw [h1, h2]
    · rw [truncated_diff, if_neg hlen]
      omega
  · intro hle
    rw [truncated_diff, if_neg (by omega)]
  · intro hgt
    rw [truncated_diff, if_pos hgt]

/-- Witness for claim C8 at a concrete one-entry diff map. -/
theorem claim_C8_witness :
    truncated_diff "x" ∈ prompt_diff_parts [("f.py", "x")] ∧
    (truncated_diff "x").length ≤ 3016 ∧ truncated_diff "x" = "x" :=
  have h := claim_C8 [("f.py", "x")] "f.py" "x" (by simp)
  ⟨h.1, h.2.1, h.2.2.1 (by decide)⟩

/-- Counterexample to claim C8 as stated: a 3001-character diff is
embedded as a 3016-character entry (3000 kept characters plus the
16-character truncation marker), exceeding 3000 characters. -/
theorem claim_C8_counterexample :
    3000 < (truncated_diff (String.mk (List.replicate 3001 'a'))).length ∧
    truncated_diff (String.mk (List.replicate 3001 'a')) ∈
      prompt_diff_parts [("big.py", String.mk (List.replicate 3001 'a'))] := by
  constructor
  · have h1 : (String.mk (List.replicate 3001 'a')).length = 3001 := by
      show (List.replicate 3001 'a').length = 3001
      rw [List.length_replicate]
    rw [truncated_diff, if_pos (by rw [h1]; norm_num), String.length_append]
    have h2 : (String.mk ((String.mk (List.replicate 3001 'a')).data.take 3000)).length
        = 3000 := by
      show ((List.replicate 3001 'a').take 3000).length = 3000
      rw [List.length_take, List.length_replicate]
      omega
    have h3 : ("\n... [truncated]" : String).length = 16 := rfl
    rw [h2, h3]
    norm_num
  · simp [prompt_diff_parts, diffBlock]
